import Mathlib

/-!
MyList: a doubly linked list with a sentinel node and iterators.

Shallow embedding of `src/myList.cpp`.

* A `Node*` is a `Ptr`: `none` is `nullptr`, `some a` is the address of a heap cell.
* The heap is an arena `List (Option (Node T))`: cell `a` is `some n` while the node
  is alive and `none` once it has been deleted.  `new` takes the first address
  past the arena, so a new node never aliases a node that exists or existed.
* Every access through a pointer is checked: going through `nullptr` or through a
  deleted node is undefined behaviour in C++ and is the error
  `Err.undefinedBehaviour` here.
* The four `throw std::runtime_error(...)` of the source are the other errors.
* `int listSize` is an unbounded `Int` (a list of `2^31` live nodes is outside the
  model).
* Loops that chase pointers take their fuel from the size of the arena: a chain that
  visits more nodes than the arena has cells has come back to a node it already
  visited and never ends (`Err.diverges`).
-/

namespace MyList

/-- Node pointer (`Node*`): `none` is `nullptr`. -/
abbrev Ptr := Option Nat

/-- Modelled from the spec: the declaration of `Node` is in `myList.hpp`, which is not
among the sources.  The spec's data model gives a node one element value and links to
the previous and the next node; the constructor calls of `myList.cpp` pass them in the
order `Node(data, prev, next)`. -/
structure Node (T : Type) where
  data : T
  prev : Ptr
  next : Ptr
deriving DecidableEq, Repr

/-- The arena of nodes: `some n` is a live node, `none` a deleted one. -/
abbrev Heap (T : Type) := List (Option (Node T))

/-- Ways a call can fail. -/
inductive Err where
  /-- access through `nullptr` or a deleted node -/
  | undefinedBehaviour
  /-- `std::runtime_error("List is empty")` -/
  | listIsEmpty
  /-- `std::runtime_error("Incrementing null")` -/
  | incrementingNull
  /-- `std::runtime_error("Decrementing null")` -/
  | decrementingNull
  /-- `std::runtime_error("Dereferencing null")` -/
  | dereferencingNull
  /-- a pointer-chasing loop that never ends -/
  | diverges
deriving DecidableEq, Repr

/-- The live node in cell `a` of the arena, if there is one. -/
def Heap.cell {T : Type} (h : Heap T) (a : Nat) : Option (Node T) :=
  match h[a]? with
  | some (some n) => some n
  | _ => none

/-- The arena with the content of cell `a` replaced. -/
def Heap.put {T : Type} (h : Heap T) (a : Nat) (x : Option (Node T)) : Heap T :=
  h.set a x

/-- The arena with one more cell, holding the node `n`. -/
def Heap.push {T : Type} (h : Heap T) (n : Node T) : Heap T :=
  h ++ [some n]

/-- The node `p` points to (`*p`). -/
def Heap.read {T : Type} (h : Heap T) (p : Ptr) : Except Err (Node T) :=
  match p with
  | none => .error .undefinedBehaviour
  | some a =>
    match h.cell a with
    | some n => .ok n
    | none => .error .undefinedBehaviour

/-- Assignment to fields of the node `p` points to (`p->field = ...`). -/
def Heap.modify {T : Type} (h : Heap T) (p : Ptr) (f : Node T → Node T) :
    Except Err (Heap T) :=
  match p with
  | none => .error .undefinedBehaviour
  | some a =>
    match h.cell a with
    | some n => .ok (h.put a (some (f n)))
    | none => .error .undefinedBehaviour

/-- Allocation `new Node(...)`: the node is placed in a fresh cell. -/
def Heap.new {T : Type} (h : Heap T) (n : Node T) : Heap T × Ptr :=
  (h.push n, some h.length)

/-- Deallocation `delete p` (`delete nullptr` does nothing). -/
def Heap.delete {T : Type} (h : Heap T) (p : Ptr) : Except Err (Heap T) :=
  match p with
  | none => .ok h
  | some a =>
    match h.cell a with
    | some _ => .ok (h.put a none)
    | none => .error .undefinedBehaviour

/-- Modelled from the spec: the default constructor `Node()` is declared in
`myList.hpp`, which is not among the sources.  The sentinel it builds holds no element
(the value-initialised `T`), its backward link is empty while the list is empty, and
its forward link is never set by `myList.cpp`. -/
def Node.default {T : Type} [Inhabited T] : Node T :=
  { data := Inhabited.default, prev := none, next := none }

end MyList

/-- The data members of `MyList<T>`. -/
structure MyList where
  startNode : MyList.Ptr
  endNode : MyList.Ptr
  listSize : Int
  sentinel : MyList.Ptr
deriving DecidableEq, Repr

namespace MyList

variable {T : Type}

/-- Default constructor `MyList()`. -/
def construct [Inhabited T] (h : Heap T) : Heap T × MyList :=
  let (h, s) := h.new Node.default
  (h, { startNode := none, endNode := none, listSize := 0, sentinel := s })

/-- Member `empty()`. -/
def empty (l : MyList) : Bool :=
  l.startNode == none

/-- Member `size()`. -/
def size (l : MyList) : Int :=
  l.listSize

/-- Member `push_back(val)`. -/
def push_back (h : Heap T) (l : MyList) (val : T) : Except Err (Heap T × MyList) := do
  let (h, n) := h.new { data := val, prev := none, next := l.sentinel }
  let (h, l) ←
    if l.empty then
      pure (h, { l with startNode := n })
    else do
      let h ← h.modify n (fun x => { x with prev := l.endNode })
      let h ← h.modify l.endNode (fun x => { x with next := n })
      pure (h, l)
  let l := { l with endNode := n }
  let h ← h.modify l.sentinel (fun x => { x with prev := l.endNode })
  pure (h, { l with listSize := l.listSize + 1 })

/-- Member `pop_back()`. -/
def pop_back (h : Heap T) (l : MyList) : Except Err (Heap T × MyList) :=
  if !l.empty then do
    let temp := l.endNode
    let (h, l) ←
      if l.startNode == l.endNode then do
        let l := { l with startNode := none, endNode := none }
        let h ← h.modify l.sentinel (fun x => { x with prev := none })
        pure (h, l)
      else do
        let e ← h.read l.endNode
        let l := { l with endNode := e.prev }
        let h ← h.modify l.endNode (fun x => { x with next := l.sentinel })
        let h ← h.modify l.sentinel (fun x => { x with prev := l.endNode })
        pure (h, l)
    let h ← h.delete temp
    pure (h, { l with listSize := l.listSize - 1 })
  else
    pure (h, l)

/-- Member `push_front(val)`. -/
def push_front (h : Heap T) (l : MyList) (val : T) : Except Err (Heap T × MyList) := do
  let (h, n) := h.new { data := val, prev := none, next := none }
  let (h, l) ←
    if l.empty then do
      let l := { l with endNode := n }
      let h ← h.modify l.endNode (fun x => { x with next := l.sentinel })
      pure (h, l)
    else do
      let h ← h.modify n (fun x => { x with next := l.startNode })
      let h ← h.modify l.startNode (fun x => { x with prev := n })
      pure (h, l)
  let l := { l with startNode := n }
  pure (h, { l with listSize := l.listSize + 1 })

/-- Member `pop_front()`. -/
def pop_front (h : Heap T) (l : MyList) : Except Err (Heap T × MyList) :=
  if !l.empty then do
    let temp := l.startNode
    let (h, l) ←
      if l.startNode == l.endNode then do
        let l := { l with startNode := none, endNode := none }
        let h ← h.modify l.sentinel (fun x => { x with prev := none })
        pure (h, l)
      else do
        let f ← h.read l.startNode
        let l := { l with startNode := f.next }
        let h ← h.modify l.startNode (fun x => { x with prev := none })
        pure (h, l)
    let h ← h.delete temp
    pure (h, { l with listSize := l.listSize - 1 })
  else
    pure (h, l)

/-- Member `front()`, as the value read through the returned reference. -/
def front (h : Heap T) (l : MyList) : Except Err T :=
  if l.empty then
    .error .listIsEmpty
  else do
    let n ← h.read l.startNode
    pure n.data

/-- Member `back()`, as the value read through the returned reference. -/
def back (h : Heap T) (l : MyList) : Except Err T :=
  if l.empty then
    .error .listIsEmpty
  else do
    let n ← h.read l.endNode
    pure n.data

/-- The data member of `MyList<T>::Iterator`: a cursor on one node. -/
structure Iterator where
  current_ : Ptr
deriving DecidableEq, Repr

/-- Modelled from the spec: `Iterator::operator!=` is declared in `myList.hpp`, which is
not among the sources.  By the spec two iterators are equal when they reference the
identical node, the sentinel included. -/
def Iterator.ne (a b : Iterator) : Bool :=
  a.current_ != b.current_

/-- Member `Iterator::getCurrent()`. -/
def Iterator.getCurrent (it : Iterator) : Ptr :=
  it.current_

/-- Member `begin()`. -/
def begin_ (l : MyList) : Iterator :=
  ⟨l.startNode⟩

/-- Member `end()`. -/
def end_ (l : MyList) : Iterator :=
  ⟨l.sentinel⟩

/-- Pre-increment `Iterator::operator++`. -/
def Iterator.inc (h : Heap T) (it : Iterator) : Except Err Iterator :=
  if it.current_ == none then
    .error .incrementingNull
  else do
    let n ← h.read it.current_
    if n.next == none then
      .error .incrementingNull
    else
      pure ⟨n.next⟩

/-- Pre-decrement `Iterator::operator--`. -/
def Iterator.dec (h : Heap T) (it : Iterator) : Except Err Iterator :=
  if it.current_ == none then
    .error .decrementingNull
  else do
    let n ← h.read it.current_
    if n.prev == none then
      .error .decrementingNull
    else
      pure ⟨n.prev⟩

/-- Dereference `Iterator::operator*`, as the value read through the returned
reference. -/
def Iterator.deref (h : Heap T) (it : Iterator) : Except Err T :=
  if it.current_ == none then
    .error .dereferencingNull
  else do
    let n ← h.read it.current_
    pure n.data

/-- Assignment `*it = v` through the reference `Iterator::operator*` returns. -/
def Iterator.assign (h : Heap T) (it : Iterator) (v : T) : Except Err (Heap T) :=
  if it.current_ == none then
    .error .dereferencingNull
  else
    h.modify it.current_ (fun x => { x with data := v })

/-- Member `insert(it, val)`. -/
def insert (h : Heap T) (l : MyList) (it : Iterator) (val : T) :
    Except Err (Heap T × MyList) :=
  if it.getCurrent == l.startNode then
    push_front h l val
  else if it.getCurrent == l.sentinel then
    push_back h l val
  else do
    let c ← h.read it.getCurrent
    let (h, n) := h.new { data := val, prev := c.prev, next := it.getCurrent }
    let c ← h.read it.getCurrent
    let h ← h.modify c.prev (fun x => { x with next := n })
    let h ← h.modify it.getCurrent (fun x => { x with prev := n })
    pure (h, { l with listSize := l.listSize + 1 })

/-- Member `erase(it)`. -/
def erase (h : Heap T) (l : MyList) (it : Iterator) : Except Err (Heap T × MyList) :=
  if it.getCurrent == l.startNode then
    pop_front h l
  else if it.getCurrent == l.endNode then
    pop_back h l
  else do
    let c ← h.read it.getCurrent
    let h ← h.modify c.prev (fun x => { x with next := c.next })
    let c ← h.read it.getCurrent
    let h ← h.modify c.next (fun x => { x with prev := c.prev })
    let h ← h.delete it.getCurrent
    pure (h, { l with listSize := l.listSize - 1 })

/-- The loop of the initializer-list constructor: `push_back` of each value. -/
def pushAll (h : Heap T) (l : MyList) : List T → Except Err (Heap T × MyList)
  | [] => pure (h, l)
  | v :: vs => do
    let (h, l) ← push_back h l v
    pushAll h l vs

/-- A caller's loop `for (const T& val : vals) push_front(val)`. -/
def pushFrontAll (h : Heap T) (l : MyList) : List T → Except Err (Heap T × MyList)
  | [] => pure (h, l)
  | v :: vs => do
    let (h, l) ← push_front h l v
    pushFrontAll h l vs

/-- Constructor `MyList(std::initializer_list<T> vals)`. -/
def constructFrom [Inhabited T] (h : Heap T) (vals : List T) :
    Except Err (Heap T × MyList) :=
  let (h, l) := construct h
  pushAll h l vals

/-- The loop of the copy constructor,
`for (Node* n = other.startNode; n != other.sentinel; n = n->next) push_back(n->data)`,
with `n` the loop variable and `l` the list under construction. -/
def copyLoop (other : MyList) : Nat → Heap T → MyList → Ptr → Except Err (Heap T × MyList)
  | 0, _, _, _ => .error .diverges
  | fuel + 1, h, l, n =>
    if n != other.sentinel then do
      let x ← h.read n
      let (h, l) ← push_back h l x.data
      let x ← h.read n
      copyLoop other fuel h l x.next
    else
      pure (h, l)

/-- Copy constructor `MyList(const MyList& other)`.  The loop over the nodes of `other`
gets one step more than the arena `other` lives in has cells. -/
def copyConstruct [Inhabited T] (h : Heap T) (other : MyList) :
    Except Err (Heap T × MyList) :=
  let fuel := h.length + 1
  let (h, l) := construct h
  copyLoop other fuel h l other.startNode

/-- The loop `for (it = begin(); it != end(); ++it) visit(*it)` of a caller, collecting
the values it dereferences. -/
def traverseLoop (h : Heap T) (last : Iterator) : Nat → Iterator → Except Err (List T)
  | 0, _ => .error .diverges
  | fuel + 1, it =>
    if it.ne last then do
      let v ← it.deref h
      let it ← it.inc h
      let vs ← traverseLoop h last fuel it
      pure (v :: vs)
    else
      pure []

/-- The traversal that starts at `begin()` and advances until the iterator equals
`end()`. -/
def traverse (h : Heap T) (l : MyList) : Except Err (List T) :=
  traverseLoop h l.end_ (h.length + 1) l.begin_

/-- The iterator reached from `begin()` by `i` increments. -/
def iterAt (h : Heap T) (l : MyList) : Nat → Except Err Iterator
  | 0 => pure l.begin_
  | i + 1 => do
    let it ← iterAt h l i
    it.inc h

/-- The front-to-back element sequence of a list: no element when `empty()` holds, and
the values of the chain of `next` links from the first node to the sentinel
otherwise. -/
def elements (h : Heap T) (l : MyList) : Except Err (List T) :=
  if l.empty then pure [] else traverse h l

/-- The backward link of the sentinel (`sentinel->prev`). -/
def sentinelPrev (h : Heap T) (l : MyList) : Except Err Ptr := do
  let s ← h.read l.sentinel
  pure s.prev

/-- Pre-increment `Iterator::operator++` as a change of the iterator object: the object
after the call, and the exception the call ended with, if any.  The source assigns
`current_` only on the branch that does not throw. -/
def Iterator.increment (h : Heap T) (it : Iterator) : Iterator × Option Err :=
  if it.current_ == none then
    (it, some .incrementingNull)
  else
    match h.read it.current_ with
    | .error e => (it, some e)
    | .ok n =>
      if n.next == none then
        (it, some .incrementingNull)
      else
        (⟨n.next⟩, none)

/-- The loop `for (Node* n = first; n != sentinel; n = n->next)` over the chain of `next`
links, collecting the addresses of the nodes it visits before it reaches the sentinel. -/
def chainLoop (h : Heap T) (sentinel : Ptr) : Nat → Ptr → Except Err (List Nat)
  | 0, _ => .error .diverges
  | fuel + 1, n =>
    if n != sentinel then
      match n with
      | none => .error .undefinedBehaviour
      | some a => do
        let x ← h.read n
        let rest ← chainLoop h sentinel fuel x.next
        pure (a :: rest)
    else
      pure []

/-- The element nodes of a list, front to back: none when the first reference is empty,
and the nodes on the chain of `next` links from the first node up to the sentinel
otherwise. -/
def nodes (h : Heap T) (l : MyList) : Except Err (List Nat) :=
  if l.empty then pure [] else chainLoop h l.sentinel (h.length + 1) l.startNode

/-- The loop `while (!empty()) pop_front()` of `emptyList()`. -/
def emptyLoop : Nat → Heap T → MyList → Except Err (Heap T × MyList)
  | 0, _, _ => .error .diverges
  | fuel + 1, h, l =>
    if !l.empty then do
      let (h, l) ← pop_front h l
      emptyLoop fuel h l
    else
      pure (h, l)

/-- Member `emptyList()`, the body of the destructor `~MyList()`: every element is popped
and the sentinel is deleted. -/
def emptyList (h : Heap T) (l : MyList) : Except Err (Heap T) := do
  let (h, l) ← emptyLoop (h.length + 1) h l
  h.delete l.sentinel

/-- Assignment `operator=(MyList other)` applied to the list `self` with argument `arg`.
The parameter `other` is passed by value, so it is copy-constructed from `arg`; it is an
object of its own, so the guard `this != &other` holds in every call and the four data
members are swapped; when the call returns, `other`, which now holds the former members
of `self`, is destroyed. -/
def operator_assign [Inhabited T] (h : Heap T) (self arg : MyList) :
    Except Err (Heap T × MyList) := do
  let (h, other) ← copyConstruct h arg
  let (self, other) := (other, self)
  let h ← emptyList h other
  pure (h, self)

end MyList


namespace MyList

variable {T : Type}

/-! ## Proof-level description of a well-formed list -/

/-- Address of the first cell of a chain, or `d` when the chain has no cell. -/
def headPtr : List (Nat × T) → Ptr → Ptr
  | [], d => d
  | c :: _, _ => some c.1

/-- Address of the last cell of a chain, or `d` when the chain has no cell. -/
def lastPtr : List (Nat × T) → Ptr → Ptr
  | [], d => d
  | c :: cs, _ => lastPtr cs (some c.1)

/-- The cells `cs` (address and value, front to back) are live nodes of `h` linked in
both directions: the first one's `prev` is `p`, the last one's `next` is `q`. -/
def Seg (h : Heap T) : Ptr → List (Nat × T) → Ptr → Prop
  | _, [], _ => True
  | p, c :: cs, q =>
    h.cell c.1 = some { data := c.2, prev := p, next := headPtr cs q } ∧
      Seg h (some c.1) cs q

/-- The list `l` in heap `h` has the sentinel at address `s` and the element nodes
`cells`.  The sentinel's backward link is the last node or is still empty. -/
structure Rep (h : Heap T) (l : MyList) (s : Nat) (cells : List (Nat × T)) : Prop where
  sentinel : l.sentinel = some s
  start : l.startNode = headPtr cells none
  last : l.endNode = lastPtr cells none
  size : l.listSize = cells.length
  nodup : (cells.map Prod.fst).Nodup
  fresh : s ∉ cells.map Prod.fst
  seg : Seg h none cells (some s)
  sent : ∃ d sp, h.cell s = some { data := d, prev := sp, next := none } ∧
    (sp = none ∨ sp = lastPtr cells none)

/-- What a call leaves alone: the arena only grows, and a cell outside `fp` keeps its
content. -/
def Frame (h h' : Heap T) (fp : List Nat) : Prop :=
  h.length ≤ h'.length ∧ ∀ a, a < h.length → a ∉ fp → h'.cell a = h.cell a

/-- The heap cells that belong to a list: its sentinel and its element nodes. -/
def footprint (s : Nat) (cells : List (Nat × T)) : List Nat :=
  s :: cells.map Prod.fst

/-- The iterator `it` is at an element of the list: it is `begin()` advanced `i` times
for some `i` below `size()`. -/
def AtElement (h : Heap T) (l : MyList) (it : Iterator) : Prop :=
  ∃ i : Nat, (i : Int) < l.size ∧ iterAt h l i = .ok it

/-- The iterator `it` is a position of the list: `begin()`, `end()` or an element. -/
def Position (h : Heap T) (l : MyList) (it : Iterator) : Prop :=
  it = l.begin_ ∨ it = l.end_ ∨ AtElement h l it

/-- One call of a public mutator on the list `l`, taking the heap from `h` to `h'`. -/
inductive Step : Heap T → MyList → Heap T → MyList → Prop
  | push_back {h h' : Heap T} {l l' : MyList} (v : T) :
      push_back h l v = .ok (h', l') → Step h l h' l'
  | push_front {h h' : Heap T} {l l' : MyList} (v : T) :
      push_front h l v = .ok (h', l') → Step h l h' l'
  | pop_back {h h' : Heap T} {l l' : MyList} :
      pop_back h l = .ok (h', l') → Step h l h' l'
  | pop_front {h h' : Heap T} {l l' : MyList} :
      pop_front h l = .ok (h', l') → Step h l h' l'
  | insert {h h' : Heap T} {l l' : MyList} (it : Iterator) (v : T) :
      Position h l it → insert h l it v = .ok (h', l') → Step h l h' l'
  | erase {h h' : Heap T} {l l' : MyList} (it : Iterator) :
      AtElement h l it → erase h l it = .ok (h', l') → Step h l h' l'
  | assign {h h' : Heap T} {l : MyList} (it : Iterator) (v : T) :
      AtElement h l it → it.assign h v = .ok h' → Step h l h' l

/-- A sequence of calls of public mutators on one list. -/
inductive Steps : Heap T → MyList → Heap T → MyList → Prop
  | refl {h : Heap T} {l : MyList} : Steps h l h l
  | tail {h h1 h2 : Heap T} {l l1 l2 : MyList} :
      Steps h l h1 l1 → Step h1 l1 h2 l2 → Steps h l h2 l2

/-- The list `l` in heap `h` is the result of the default constructor followed by calls
of public mutators. -/
def Reachable [Inhabited T] (h : Heap T) (l : MyList) : Prop :=
  ∃ h0 : Heap T, Steps (construct h0).1 (construct h0).2 h l

/-- One call of a mutator that adds a node, or that removes a node other than the one
the iterator `p` references. -/
inductive KeepsNode (p : Iterator) : Heap T → MyList → Heap T → MyList → Prop
  | push_back {h h' : Heap T} {l l' : MyList} (v : T) :
      push_back h l v = .ok (h', l') → KeepsNode p h l h' l'
  | push_front {h h' : Heap T} {l l' : MyList} (v : T) :
      push_front h l v = .ok (h', l') → KeepsNode p h l h' l'
  | insert {h h' : Heap T} {l l' : MyList} (it : Iterator) (v : T) :
      Position h l it → insert h l it v = .ok (h', l') → KeepsNode p h l h' l'
  | pop_back {h h' : Heap T} {l l' : MyList} :
      p.current_ ≠ l.endNode → pop_back h l = .ok (h', l') → KeepsNode p h l h' l'
  | pop_front {h h' : Heap T} {l l' : MyList} :
      p.current_ ≠ l.startNode → pop_front h l = .ok (h', l') → KeepsNode p h l h' l'
  | erase {h h' : Heap T} {l l' : MyList} (it : Iterator) :
      AtElement h l it → it ≠ p → erase h l it = .ok (h', l') → KeepsNode p h l h' l'

/-- The call that took the heap from `h` to `h'` changed the list with cells `cells` and
sentinel `s` at one position, between the cells `xs` and the cells `ys`: it removed the
one cell `mid`, which is not the cell `c`, or added the one new cell `mid'`; the list
`l'` is well formed with the resulting cells, and outside the sentinel, the last cell of
`xs`, `mid` and the first cell of `ys` no cell of the heap changed. -/
def Splice (h h' : Heap T) (l' : MyList) (s : Nat) (cells : List (Nat × T)) (c : Nat × T) :
    Prop :=
  ∃ xs ys mid mid', cells = xs ++ mid ++ ys ∧ Rep h' l' s (xs ++ mid' ++ ys) ∧
    mid.length + mid'.length = 1 ∧ (∀ m ∈ mid', m.1 = h.length) ∧ (∀ m ∈ mid, m.1 ≠ c.1) ∧
    Frame h h' (s :: (xs.reverse.take 1 ++ mid ++ ys.take 1).map Prod.fst)

/-! ## Concrete lists used as examples -/

/-- The arena after `MyList<int> li {1, 2, 3}` in an empty arena: the sentinel in cell 0
and the three element nodes in cells 1 to 3. -/
def heap123 : Heap Int :=
  [some ⟨0, some 3, none⟩, some ⟨1, none, some 2⟩, some ⟨2, some 1, some 3⟩,
    some ⟨3, some 2, some 0⟩]

/-- The data members of the list `{1, 2, 3}` in `heap123`. -/
def list123 : MyList :=
  { startNode := some 1, endNode := some 3, listSize := 3, sentinel := some 0 }

/-- The arena after copy-constructing a list from `list123` in `heap123`: the copy's
sentinel is in cell 4 and its element nodes are in cells 5 to 7. -/
def heapCopy : Heap Int :=
  heap123 ++ [some ⟨0, some 7, none⟩, some ⟨1, none, some 6⟩, some ⟨2, some 5, some 7⟩,
    some ⟨3, some 6, some 4⟩]

/-- The data members of the copy of `list123` in `heapCopy`. -/
def listCopy : MyList :=
  { startNode := some 5, endNode := some 7, listSize := 3, sentinel := some 4 }

/-- The arena `heapCopy` after `push_front(7)`, `erase` of the second element, assignment
of 8 to the second element and `pop_back()` on the copy. -/
def heapMutated : Heap Int :=
  heap123 ++ [some ⟨0, some 6, none⟩, none, some ⟨8, some 8, some 4⟩, none,
    some ⟨7, none, some 6⟩]

/-- The data members of the copy after the four calls. -/
def listMutated : MyList :=
  { startNode := some 8, endNode := some 6, listSize := 2, sentinel := some 4 }

/-- The arena `heap123` after `erase` of the first element of `list123`. -/
def heapErased : Heap Int :=
  [some ⟨0, some 3, none⟩, none, some ⟨2, none, some 3⟩, some ⟨3, some 2, some 0⟩]

/-- The data members of `list123` after `erase` of its first element. -/
def listErased : MyList :=
  { startNode := some 2, endNode := some 3, listSize := 2, sentinel := some 0 }

/-- The arena after `push_front(1)` on a fresh list in an empty arena: the sentinel's
backward link is still empty. -/
def heapFront : Heap Int :=
  [some ⟨0, none, none⟩, some ⟨1, none, some 0⟩]

/-- The data members of the one-element list in `heapFront`. -/
def listFront : MyList :=
  { startNode := some 1, endNode := some 1, listSize := 1, sentinel := some 0 }

/-! ## Heap lemmas -/

theorem and_of_imp {a b : Prop} (ha : a) (hb : a → b) : a ∧ b := ⟨ha, hb ha⟩

theorem eq_nil_or_snoc {α : Type} (l : List α) : l = [] ∨ ∃ xs c, l = xs ++ [c] := by
  rcases List.eq_nil_or_concat l with h | ⟨xs, c, h⟩
  · exact Or.inl h
  · exact Or.inr ⟨xs, c, by simpa using h⟩

@[simp] theorem length_put (h : Heap T) (a : Nat) (x : Option (Node T)) :
    (h.put a x).length = h.length := by
  simp [Heap.put]

@[simp] theorem length_push (h : Heap T) (n : Node T) :
    (h.push n).length = h.length + 1 := by
  simp [Heap.push]

theorem lt_of_cell {h : Heap T} {a : Nat} {n : Node T} (hl : h.cell a = some n) :
    a < h.length := by
  by_contra hc
  simp [Heap.cell, List.getElem?_eq_none (Nat.le_of_not_lt hc)] at hl

theorem cell_put_self {h : Heap T} {a : Nat} (x : Option (Node T)) (ha : a < h.length) :
    (h.put a x).cell a = x := by
  cases x <;> simp [Heap.cell, Heap.put, ha]

theorem cell_put_other {h : Heap T} {a b : Nat} (x : Option (Node T)) (hne : a ≠ b) :
    (h.put a x).cell b = h.cell b := by
  simp [Heap.cell, Heap.put, hne]

theorem cell_push_self (h : Heap T) (n : Node T) : (h.push n).cell h.length = some n := by
  simp [Heap.cell, Heap.push]

theorem cell_push_old {h : Heap T} {a : Nat} (n : Node T) (ha : a < h.length) :
    (h.push n).cell a = h.cell a := by
  simp [Heap.cell, Heap.push, List.getElem?_append_left ha]

/-! ## Chains -/

@[simp] theorem headPtr_nil (d : Ptr) : headPtr ([] : List (Nat × T)) d = d := rfl

@[simp] theorem headPtr_cons (c : Nat × T) (cs : List (Nat × T)) (d : Ptr) :
    headPtr (c :: cs) d = some c.1 := rfl

@[simp] theorem lastPtr_nil (d : Ptr) : lastPtr ([] : List (Nat × T)) d = d := rfl

@[simp] theorem lastPtr_cons (c : Nat × T) (cs : List (Nat × T)) (d : Ptr) :
    lastPtr (c :: cs) d = lastPtr cs (some c.1) := rfl

@[simp] theorem seg_nil (h : Heap T) (p q : Ptr) : Seg h p [] q := trivial

theorem seg_cons (h : Heap T) (p q : Ptr) (c : Nat × T) (cs : List (Nat × T)) :
    Seg h p (c :: cs) q ↔
      h.cell c.1 = some { data := c.2, prev := p, next := headPtr cs q } ∧
        Seg h (some c.1) cs q := Iff.rfl

@[simp] theorem lastPtr_append (xs ys : List (Nat × T)) (d : Ptr) :
    lastPtr (xs ++ ys) d = lastPtr ys (lastPtr xs d) := by
  induction xs generalizing d with
  | nil => rfl
  | cons c cs ih => simp [lastPtr_nil, lastPtr_cons, ih]

@[simp] theorem headPtr_append (xs ys : List (Nat × T)) (d : Ptr) :
    headPtr (xs ++ ys) d = headPtr xs (headPtr ys d) := by
  cases xs <;> rfl

theorem seg_append (h : Heap T) (p q : Ptr) (xs ys : List (Nat × T)) :
    Seg h p (xs ++ ys) q ↔ Seg h p xs (headPtr ys q) ∧ Seg h (lastPtr xs p) ys q := by
  induction xs generalizing p with
  | nil => simp [seg_nil, seg_cons, lastPtr_nil, lastPtr_cons]
  | cons c cs ih => simp [seg_nil, seg_cons, lastPtr_nil, lastPtr_cons, ih, and_assoc]

theorem seg_congr {h h' : Heap T} {p q : Ptr} {cs : List (Nat × T)}
    (hf : ∀ a ∈ cs.map Prod.fst, h'.cell a = h.cell a) (hs : Seg h p cs q) : Seg h' p cs q := by
  induction cs generalizing p with
  | nil => trivial
  | cons c cs ih =>
    refine ⟨?_, ih (fun a ha => hf a (by simp at ha ⊢; exact Or.inr ha)) hs.2⟩
    rw [hf c.1 (by simp)]
    exact hs.1

theorem seg_lt {h : Heap T} {p q : Ptr} {cs : List (Nat × T)} (hs : Seg h p cs q) :
    ∀ a ∈ cs.map Prod.fst, a < h.length := by
  induction cs generalizing p with
  | nil => simp
  | cons c cs ih =>
    intro a ha
    simp only [List.map_cons, List.mem_cons] at ha
    rcases ha with rfl | ha
    · exact lt_of_cell hs.1
    · exact ih hs.2 a ha

/-! ## The mutators on a well-formed list -/

theorem headPtr_eq_none {cs : List (Nat × T)} : headPtr cs none = none ↔ cs = [] := by
  cases cs <;> simp [headPtr_nil, headPtr_cons]

theorem lastPtr_mem (cs : List (Nat × T)) (b : Nat) :
    ∃ x, x ∈ b :: cs.map Prod.fst ∧ lastPtr cs (some b) = some x := by
  induction cs generalizing b with
  | nil => exact ⟨b, by simp, rfl⟩
  | cons c cs ih =>
    obtain ⟨x, hx, he⟩ := ih c.1
    exact ⟨x, by simp at hx ⊢; exact Or.inr hx, he⟩

theorem headPtr_mem (cs : List (Nat × T)) (b : Nat) :
    ∃ x, x ∈ cs.map Prod.fst ++ [b] ∧ headPtr cs (some b) = some x := by
  cases cs with
  | nil => exact ⟨b, by simp, rfl⟩
  | cons c cs => exact ⟨c.1, by simp, rfl⟩

theorem push_front_rep {h : Heap T} {l : MyList} {s : Nat} {cells : List (Nat × T)}
    (hr : Rep h l s cells) (v : T) :
    ∃ h' l', push_front h l v = .ok (h', l') ∧ Frame h h' ((cells.take 1).map Prod.fst) ∧
      Rep h' l' s ((h.length, v) :: cells) := by
  obtain ⟨hsen, hst, hla, hsz, hnd, hfr, hseg, d, sp, hs, hsp⟩ := hr
  have hslt := lt_of_cell hs
  have hsne : s ≠ h.length := by omega
  generalize hres : push_front h l v = res
  cases cells with
  | nil =>
    simp only [headPtr_nil, headPtr_cons, lastPtr_nil, lastPtr_cons] at hst hla
    simp [push_front, Heap.new, Heap.modify, empty, hst, hsen, bind, Except.bind, pure,
      Except.pure, cell_push_self] at hres
    subst hres
    refine ⟨_, _, rfl, and_of_imp ⟨by simp, fun b hb _ => ?_⟩ fun hframe => ?_⟩
    · rw [cell_put_other _ (by omega), cell_push_old _ hb]
    · refine ⟨rfl, rfl, rfl, ?_, ?_, ?_, ?_, d, sp, ?_, ?_⟩
      · simp [hsz]
      · simp
      · simp; omega
      · simp [seg_nil, seg_cons, headPtr_nil, headPtr_cons, cell_put_self]
      · rw [hframe.2 s hslt (by simp), hs]
      · simp [lastPtr_nil, lastPtr_cons] at hsp
        exact Or.inl hsp
  | cons c rest =>
    obtain ⟨a, va⟩ := c
    simp only [headPtr_nil, headPtr_cons, lastPtr_nil, lastPtr_cons] at hst hla
    simp only [seg_nil, seg_cons] at hseg
    obtain ⟨ha, hrest⟩ := hseg
    have halt := lt_of_cell ha
    have hane : a ≠ h.length := by omega
    simp [push_front, Heap.new, Heap.modify, empty, hst, hsen, bind, Except.bind, pure,
      Except.pure, cell_push_self, cell_put_other _ hane.symm, cell_push_old _ halt, ha]
      at hres
    subst hres
    simp only [List.map_cons, List.nodup_cons, List.mem_cons, not_or] at hnd hfr
    refine ⟨_, _, rfl, and_of_imp ⟨by simp, fun b hb hba => ?_⟩ fun hframe => ?_⟩
    · simp at hba
      rw [cell_put_other _ (Ne.symm hba), cell_put_other _ (by omega), cell_push_old _ hb]
    · have hfr' : ∀ b, b < h.length → b ≠ a → _ := fun b hb hba => hframe.2 b hb (by simpa using hba)
      refine ⟨rfl, rfl, ?_, ?_, ?_, ?_, ⟨?_, ?_, ?_⟩, d, sp, ?_, ?_⟩
      · simp [lastPtr_nil, lastPtr_cons, hla]
      · simp [hsz]
      · simp only [List.map_cons, List.nodup_cons, List.mem_cons, not_or]
        refine ⟨⟨by omega, fun hm => ?_⟩, hnd⟩
        have := seg_lt hrest _ hm
        omega
      · simp only [List.map_cons, List.mem_cons, not_or]
        exact ⟨hsne, hfr⟩
      · simp [cell_put_other _ hane, cell_put_self, headPtr_nil, headPtr_cons]
      · simp [cell_put_self, Nat.lt_succ_of_lt halt]
      · refine seg_congr (fun b hb => hfr' b (seg_lt hrest b hb) ?_) hrest
        rintro rfl
        exact hnd.1 hb
      · rw [hfr' s hslt hfr.1, hs]
      · simpa [lastPtr_nil, lastPtr_cons] using hsp

theorem push_back_rep {h : Heap T} {l : MyList} {s : Nat} {cells : List (Nat × T)}
    (hr : Rep h l s cells) (v : T) :
    ∃ h' l', push_back h l v = .ok (h', l') ∧
      Frame h h' (s :: (cells.reverse.take 1).map Prod.fst) ∧
      Rep h' l' s (cells ++ [(h.length, v)]) ∧
      ∃ d, h'.cell s = some { data := d, prev := some h.length, next := none } := by
  obtain ⟨hsen, hst, hla, hsz, hnd, hfr, hseg, d, sp, hs, hsp⟩ := hr
  have hslt := lt_of_cell hs
  have hsne : s ≠ h.length := by omega
  have hlt := seg_lt hseg
  generalize hres : push_back h l v = res
  rcases eq_nil_or_snoc cells with rfl | ⟨xs, c, rfl⟩
  · simp only [headPtr_nil, headPtr_cons, lastPtr_nil, lastPtr_cons] at hst hla
    simp [push_back, Heap.new, Heap.modify, empty, hst, hsen, bind, Except.bind, pure,
      Except.pure, cell_push_old _ hslt, hs] at hres
    subst hres
    refine ⟨_, _, rfl, and_of_imp ⟨by simp, fun b hb hbs => ?_⟩ fun hframe => ⟨?_, ?_⟩⟩
    · simp at hbs
      rw [cell_put_other _ (Ne.symm hbs), cell_push_old _ hb]
    · refine ⟨rfl, rfl, rfl, ?_, ?_, ?_, ?_, d, some h.length, ?_, ?_⟩
      · simp [hsz]
      · simp
      · simp; omega
      · simp [seg_nil, seg_cons, headPtr_nil, headPtr_cons, cell_put_other _ hsne, cell_push_self]
      · simp [cell_put_self, hslt, Nat.lt_succ_of_lt]
      · simp [lastPtr_nil, lastPtr_cons]
    · exact ⟨d, by simp [cell_put_self, hslt, Nat.lt_succ_of_lt]⟩
  · obtain ⟨e, ve⟩ := c
    simp only [lastPtr_append, lastPtr_nil, lastPtr_cons] at hla hsp
    have hne : l.startNode ≠ none := by
      rw [hst]; intro hc; simpa using headPtr_eq_none.1 hc
    rw [seg_append] at hseg
    obtain ⟨hxs, he, -⟩ := hseg
    simp only [headPtr_nil, headPtr_cons] at hxs he
    have helt := lt_of_cell he
    have hene : e ≠ h.length := by omega
    simp only [List.map_append, List.map_cons, List.map_nil, List.nodup_append, List.mem_append,
      List.mem_singleton, not_or] at hnd hfr
    have hes : e ≠ s := fun hc => hfr.2 hc.symm
    simp [push_back, Heap.new, Heap.modify, empty, hne, hla, hsen, bind, Except.bind, pure,
      Except.pure, cell_push_self, cell_put_other _ hene.symm, cell_put_other _ hes,
      cell_put_other _ hsne.symm, cell_push_old _ helt, cell_push_old _ hslt, hs, he] at hres
    subst hres
    refine ⟨_, _, rfl, and_of_imp ⟨by simp, fun b hb hbs => ?_⟩ fun hframe => ⟨?_, ?_⟩⟩
    · simp at hbs
      rw [cell_put_other _ (Ne.symm hbs.1), cell_put_other _ (Ne.symm hbs.2),
        cell_put_other _ (by omega), cell_push_old _ hb]
    · have hfr' : ∀ b, b < h.length → b ≠ s → b ≠ e → _ :=
        fun b hb h1 h2 => hframe.2 b hb (by simp [h1, h2])
      refine ⟨rfl, ?_, ?_, ?_, ?_, ?_, ?_, d, some h.length, ?_, ?_⟩
      · simp [hst]
      · simp [lastPtr_nil, lastPtr_cons]
      · simp [hsz]; ring
      · have hx : ∀ x ∈ xs.map Prod.fst, x < h.length := fun x hx => hlt x (by simp at hx ⊢; exact Or.inl hx)
        rw [List.map_append, List.nodup_append]
        refine ⟨by simpa [List.nodup_append] using hnd, by simp, ?_⟩
        intro x hx hx'
        simp only [List.map_cons, List.map_nil, List.mem_singleton] at hx'
        have := hlt x hx
        omega
      · intro hc
        simp only [List.map_append, List.map_cons, List.map_nil, List.mem_append,
          List.mem_cons, List.mem_singleton, List.not_mem_nil, or_false] at hc
        rcases hc with (hc | hc) | hc
        · exact hfr.1 hc
        · exact hfr.2 hc
        · exact hsne hc
      · rw [List.append_assoc, seg_append]
        refine ⟨seg_congr (fun b hb => hfr' b (seg_lt hxs b hb) ?_ ?_) hxs, ?_, ?_, trivial⟩
        · rintro rfl; exact hfr.1 hb
        · rintro rfl; exact hnd.2.2 hb (by simp)
        · simp [headPtr_nil, headPtr_cons, cell_put_other _ hes.symm, cell_put_self, Nat.lt_succ_of_lt helt]
        · simp [headPtr_nil, headPtr_cons, cell_put_other _ hsne, cell_put_other _ hene, cell_put_self,
            cell_push_self]
      · simp [cell_put_self, Nat.lt_succ_of_lt hslt]
      · simp [lastPtr_nil, lastPtr_cons]
    · exact ⟨d, by simp [cell_put_self, Nat.lt_succ_of_lt hslt]⟩

theorem Frame.mono {h h' : Heap T} {fp fp' : List Nat} (hf : Frame h h' fp)
    (hsub : ∀ a ∈ fp, a ∈ fp') : Frame h h' fp' :=
  ⟨hf.1, fun a ha hn => hf.2 a ha (fun hc => hn (hsub a hc))⟩

theorem pop_front_rep {h : Heap T} {l : MyList} {s : Nat} {cells : List (Nat × T)}
    (hr : Rep h l s cells) :
    ∃ h' l', pop_front h l = .ok (h', l') ∧
      (2 ≤ cells.length → Frame h h' ((cells.take 2).map Prod.fst)) ∧
      Frame h h' (s :: (cells.take 2).map Prod.fst) ∧
      Rep h' l' s cells.tail ∧ h'.length = h.length := by
  obtain ⟨hsen, hst, hla, hsz, hnd, hfr, hseg, d, sp, hs, hsp⟩ := hr
  have hslt := lt_of_cell hs
  generalize hres : pop_front h l = res
  match cells, hst, hla, hsz, hnd, hfr, hseg, hsp with
  | [], hst, hla, hsz, hnd, hfr, hseg, hsp =>
    simp only [headPtr_nil, lastPtr_nil] at hst hla
    simp [pop_front, empty, hst, pure, Except.pure] at hres
    subst hres
    exact ⟨_, _, rfl, fun _ => ⟨le_refl _, fun _ _ _ => rfl⟩, ⟨le_refl _, fun _ _ _ => rfl⟩,
      ⟨hsen, hst, hla, hsz, hnd, hfr, hseg, d, sp, hs, hsp⟩, rfl⟩
  | [(a, va)], hst, hla, hsz, hnd, hfr, hseg, hsp =>
    simp only [headPtr_cons, lastPtr_nil, lastPtr_cons] at hst hla
    simp only [seg_cons, headPtr_nil] at hseg
    obtain ⟨ha, -⟩ := hseg
    have halt := lt_of_cell ha
    simp only [List.map_cons, List.map_nil, List.mem_singleton] at hfr
    have hsa : s ≠ a := hfr
    simp [pop_front, empty, hst, hla, hsen, Heap.modify, Heap.delete, bind, Except.bind, pure,
      Except.pure, hs, cell_put_other _ hsa, ha] at hres
    subst hres
    refine ⟨_, _, rfl, fun hc => by simp at hc, and_of_imp ⟨by simp, fun b hb hbs => ?_⟩
      fun hframe => ⟨?_, by simp⟩⟩
    · simp at hbs
      rw [cell_put_other _ (Ne.symm hbs.2), cell_put_other _ (Ne.symm hbs.1)]
    · refine ⟨rfl, rfl, rfl, ?_, ?_, ?_, ?_, d, none, ?_, ?_⟩
      · simp [hsz]
      · simp
      · simp
      · simp
      · simp [cell_put_other _ hsa.symm, cell_put_self, hslt]
      · simp
  | (a, va) :: (b, vb) :: rest, hst, hla, hsz, hnd, hfr, hseg, hsp =>
    simp only [headPtr_cons, lastPtr_cons] at hst hla
    simp only [seg_cons, headPtr_cons] at hseg
    obtain ⟨ha, hb, hrest⟩ := hseg
    have halt := lt_of_cell ha
    have hblt := lt_of_cell hb
    simp only [List.map_cons, List.nodup_cons, List.mem_cons, not_or] at hfr hnd
    obtain ⟨x, hx, hlast⟩ := lastPtr_mem rest b
    have hax : a ≠ x := by
      rintro rfl
      simp only [List.mem_cons] at hx
      rcases hx with hx | hx
      · exact hnd.1.1 hx
      · exact hnd.1.2 hx
    have hab : a ≠ b := hnd.1.1
    simp [pop_front, empty, hst, hla, hlast, hax, hsen, Heap.read, Heap.modify, Heap.delete,
      bind, Except.bind, pure, Except.pure, ha, hb, cell_put_other _ hab.symm] at hres
    subst hres
    refine ⟨_, _, rfl, and_of_imp (fun _ => ⟨by simp, fun c hc hcs => ?_⟩) fun hframe =>
      ⟨(hframe (by simp)).mono (fun c hc => List.mem_cons_of_mem _ hc), ?_, by simp⟩⟩
    · simp at hcs
      rw [cell_put_other _ (Ne.symm hcs.1), cell_put_other _ (Ne.symm hcs.2)]
    · have hfr' : ∀ c, c < h.length → c ≠ a → c ≠ b → _ :=
        fun c hc h1 h2 => (hframe (by simp)).2 c hc (by simp [h1, h2])
      refine ⟨rfl, rfl, ?_, ?_, ?_, ?_, ⟨?_, ?_⟩, d, sp, ?_, ?_⟩
      · simp [hlast]
      · simp [hsz]
      · simpa using hnd.2
      · simpa using hfr.2
      · simp [cell_put_other _ hab, cell_put_self, hblt]
      · refine seg_congr (fun c hc => hfr' c (seg_lt hrest c hc) ?_ ?_) hrest
        · rintro rfl; exact hnd.1.2 hc
        · rintro rfl; exact hnd.2.1 hc
      · rw [hfr' s hslt hfr.1 hfr.2.1, hs]
      · simpa using hsp

theorem pop_back_rep {h : Heap T} {l : MyList} {s : Nat} {cells : List (Nat × T)}
    (hr : Rep h l s cells) :
    ∃ h' l', pop_back h l = .ok (h', l') ∧
      Frame h h' (s :: (cells.reverse.take 2).map Prod.fst) ∧
      Rep h' l' s cells.dropLast ∧ h'.length = h.length ∧
      (cells ≠ [] → ∃ d, h'.cell s =
        some { data := d, prev := lastPtr cells.dropLast none, next := none }) := by
  obtain ⟨hsen, hst, hla, hsz, hnd, hfr, hseg, d, sp, hs, hsp⟩ := hr
  have hslt := lt_of_cell hs
  generalize hres : pop_back h l = res
  rcases eq_nil_or_snoc cells with rfl | ⟨ys, ⟨e, ve⟩, rfl⟩
  · simp only [headPtr_nil, lastPtr_nil] at hst hla
    simp [pop_back, empty, hst, pure, Except.pure] at hres
    subst hres
    exact ⟨_, _, rfl, ⟨le_refl _, fun _ _ _ => rfl⟩,
      ⟨hsen, hst, hla, hsz, hnd, hfr, hseg, d, sp, hs, hsp⟩, rfl, fun hc => absurd rfl hc⟩
  rcases eq_nil_or_snoc ys with rfl | ⟨xs, ⟨p, vp⟩, rfl⟩
  · simp only [List.nil_append, headPtr_cons, lastPtr_nil, lastPtr_cons] at hst hla
    simp only [List.nil_append, seg_cons, headPtr_nil] at hseg
    obtain ⟨ha, -⟩ := hseg
    have halt := lt_of_cell ha
    simp only [List.nil_append, List.map_cons, List.map_nil, List.mem_singleton] at hfr
    have hsa : s ≠ e := hfr
    simp [pop_back, empty, hst, hla, hsen, Heap.modify, Heap.delete, bind, Except.bind, pure,
      Except.pure, hs, cell_put_other _ hsa, ha] at hres
    subst hres
    refine ⟨_, _, rfl, and_of_imp ⟨by simp, fun b hb hbs => ?_⟩
      fun hframe => ⟨?_, by simp, fun _ => ⟨d, ?_⟩⟩⟩
    · simp at hbs
      rw [cell_put_other _ (Ne.symm hbs.2), cell_put_other _ (Ne.symm hbs.1)]
    · refine ⟨rfl, rfl, rfl, ?_, ?_, ?_, ?_, d, none, ?_, ?_⟩
      · simp [hsz]
      · simp
      · simp
      · simp
      · simp [cell_put_other _ hsa.symm, cell_put_self, hslt]
      · simp
    · simp [cell_put_other _ hsa.symm, cell_put_self, hslt]
  · simp only [lastPtr_append, lastPtr_cons, lastPtr_nil] at hla hsp
    simp only [List.append_assoc, List.singleton_append] at hst hsz hnd hfr hseg
    rw [seg_append] at hseg
    obtain ⟨hxs, hp, he, -⟩ := hseg
    simp only [headPtr_cons, headPtr_nil] at hxs hp he
    have hplt := lt_of_cell hp
    have helt := lt_of_cell he
    simp only [List.map_append, List.map_cons, List.map_nil, List.nodup_append, List.mem_append,
      List.mem_cons, List.mem_singleton, List.nodup_cons, List.not_mem_nil, or_false,
      not_or] at hnd hfr
    have hpe : p ≠ e := hnd.2.1.1
    obtain ⟨y, hy, hhead⟩ := headPtr_mem xs p
    rw [headPtr_append, headPtr_cons] at hst
    have hye : y ≠ e := by
      rintro rfl
      simp only [List.mem_append, List.mem_singleton] at hy
      rcases hy with hy | hy
      · exact hnd.2.2 hy (by simp)
      · exact hpe hy.symm
    simp [pop_back, empty, hst, hla, hhead, hye, hsen, Heap.read, Heap.modify, Heap.delete,
      bind, Except.bind, pure, Except.pure, hp, he, hs, cell_put_other _ (Ne.symm hfr.2.1),
      cell_put_other _ (Ne.symm hfr.2.2), cell_put_other _ hfr.2.2, cell_put_other _ hpe]
      at hres
    subst hres
    refine ⟨_, _, rfl, and_of_imp ⟨by simp, fun c hc hcs => ?_⟩
      fun hframe => ⟨?_, by simp, fun _ => ⟨d, ?_⟩⟩⟩
    · simp at hcs
      rw [cell_put_other _ (Ne.symm hcs.2.1), cell_put_other _ (Ne.symm hcs.1),
        cell_put_other _ (Ne.symm hcs.2.2)]
    · have hfr' : ∀ c, c < h.length → c ≠ s → c ≠ p → c ≠ e → _ :=
        fun c hc h1 h2 h3 => hframe.2 c hc (by simp [h1, h2, h3])
      rw [List.dropLast_concat]
      refine ⟨rfl, ?_, ?_, ?_, ?_, ?_, ?_, d, some p, ?_, ?_⟩
      · simp [hhead]
      · simp
      · simp [hsz]; ring
      · simp only [List.map_append, List.map_cons, List.map_nil, List.nodup_append]
        refine ⟨hnd.1, by simp, fun c hc hc' => hnd.2.2 hc (by simp at hc' ⊢; exact Or.inl hc')⟩
      · simp only [List.map_append, List.map_cons, List.map_nil, List.mem_append,
          List.mem_singleton, not_or]
        exact ⟨hfr.1, hfr.2.1⟩
      · rw [seg_append]
        refine ⟨seg_congr (fun c hc => hfr' c (seg_lt hxs c hc) ?_ ?_ ?_) hxs, ?_, trivial⟩
        · rintro rfl; exact hfr.1 hc
        · rintro rfl; exact hnd.2.2 hc (by simp)
        · rintro rfl; exact hnd.2.2 hc (by simp)
        · simp [cell_put_other _ (Ne.symm hpe), cell_put_other _ hfr.2.1, cell_put_self, hplt]
      · simp [cell_put_other _ (Ne.symm hfr.2.2), cell_put_self, hslt]
      · simp
    · rw [List.dropLast_concat]
      simp [cell_put_other _ (Ne.symm hfr.2.2), cell_put_self, hslt]

/-! ## Iterators and traversal on a well-formed list -/

theorem seg_cell {h : Heap T} {p q : Ptr} {xs ys : List (Nat × T)} {c : Nat × T}
    (hs : Seg h p (xs ++ c :: ys) q) :
    h.cell c.1 = some { data := c.2, prev := lastPtr xs p, next := headPtr ys q } :=
  ((seg_append h p q xs (c :: ys)).1 hs).2.1

theorem headPtr_some_ne_none (cs : List (Nat × T)) (s : Nat) : headPtr cs (some s) ≠ none := by
  cases cs <;> simp

theorem headPtr_of_ne_nil {cs : List (Nat × T)} (hne : cs ≠ []) (d d' : Ptr) :
    headPtr cs d = headPtr cs d' := by
  cases cs with
  | nil => exact absurd rfl hne
  | cons c cs => rfl

theorem iterAt_rep {h : Heap T} {l : MyList} {s : Nat} {cells : List (Nat × T)}
    (hr : Rep h l s cells) (hne : cells ≠ []) (i : Nat) (hi : i ≤ cells.length) :
    iterAt h l i = .ok ⟨headPtr (cells.drop i) (some s)⟩ := by
  induction i with
  | zero =>
    simp [iterAt, begin_, hr.start, pure, Except.pure, headPtr_of_ne_nil hne none (some s)]
  | succ i ih =>
    have hlt : i < cells.length := by omega
    have hsplit : cells = cells.take i ++ cells[i] :: cells.drop (i + 1) := by
      rw [← List.drop_eq_getElem_cons hlt, List.take_append_drop]
    have hseg := hr.seg
    rw [hsplit] at hseg
    have hc := seg_cell hseg
    have hd : headPtr (cells.drop i) (some s) = some cells[i].1 := by
      rw [List.drop_eq_getElem_cons hlt, headPtr_cons]
    rw [iterAt, ih (by omega), hd]
    simp [bind, Except.bind, Iterator.inc, Heap.read, hc, headPtr_some_ne_none, pure,
      Except.pure]

theorem atElement_rep {h : Heap T} {l : MyList} {s : Nat} {cells : List (Nat × T)}
    (hr : Rep h l s cells) {it : Iterator} (hit : AtElement h l it) :
    ∃ xs c ys, cells = xs ++ c :: ys ∧ it = ⟨some c.1⟩ := by
  obtain ⟨i, hi, hit⟩ := hit
  have hlt : i < cells.length := by
    have := hr.size
    simp only [size] at hi
    omega
  have hne : cells ≠ [] := by
    rintro rfl
    simp at hlt
  have hd : headPtr (cells.drop i) (some s) = some cells[i].1 := by
    rw [List.drop_eq_getElem_cons hlt, headPtr_cons]
  rw [iterAt_rep hr hne i (by omega), hd] at hit
  simp only [Except.ok.injEq] at hit
  refine ⟨cells.take i, cells[i], cells.drop (i + 1), ?_, hit.symm⟩
  rw [← List.drop_eq_getElem_cons hlt, List.take_append_drop]

theorem iterAt_elem {h : Heap T} {l : MyList} {s : Nat} {xs ys : List (Nat × T)}
    {c : Nat × T} (hr : Rep h l s (xs ++ c :: ys)) :
    iterAt h l xs.length = .ok ⟨some c.1⟩ := by
  rw [iterAt_rep hr (by simp) xs.length (by simp)]
  simp

theorem traverseLoop_seg {h : Heap T} {s : Nat} {cs : List (Nat × T)} {p : Ptr}
    (hs : Seg h p cs (some s)) (hfr : s ∉ cs.map Prod.fst) (fuel : Nat)
    (hfuel : cs.length < fuel) :
    traverseLoop h ⟨some s⟩ fuel ⟨headPtr cs (some s)⟩ = .ok (cs.map Prod.snd) := by
  induction cs generalizing p fuel with
  | nil =>
    obtain ⟨fuel, rfl⟩ : ∃ k, fuel = k + 1 := ⟨fuel - 1, by simp at hfuel; omega⟩
    simp [traverseLoop, Iterator.ne, pure, Except.pure]
  | cons c cs ih =>
    obtain ⟨fuel, rfl⟩ : ∃ k, fuel = k + 1 := ⟨fuel - 1, by simp at hfuel; omega⟩
    simp only [List.map_cons, List.mem_cons, not_or] at hfr
    rw [seg_cons] at hs
    have hne : c.1 ≠ s := fun hc => hfr.1 hc.symm
    have hrec := ih hs.2 hfr.2 fuel (by simp at hfuel; omega)
    simp [traverseLoop, Iterator.ne, hne, Iterator.deref, Iterator.inc, Heap.read, hs.1,
      headPtr_some_ne_none, bind, Except.bind, pure, Except.pure, hrec]

theorem length_le_of_nodup_lt {as : List Nat} {n : Nat} (hnd : as.Nodup)
    (hlt : ∀ a ∈ as, a < n) : as.length ≤ n := by
  have h1 : as.toFinset ⊆ Finset.range n := by
    intro a ha
    simp only [List.mem_toFinset] at ha
    simpa using hlt a ha
  have h2 := Finset.card_le_card h1
  rwa [List.toFinset_card_of_nodup hnd, Finset.card_range] at h2

theorem Rep.length_lt {h : Heap T} {l : MyList} {s : Nat} {cells : List (Nat × T)}
    (hr : Rep h l s cells) : cells.length < h.length := by
  obtain ⟨d, sp, hs, -⟩ := hr.sent
  have h1 : (s :: cells.map Prod.fst).Nodup := List.nodup_cons.2 ⟨hr.fresh, hr.nodup⟩
  have h2 := length_le_of_nodup_lt h1 (n := h.length) (by
    intro a ha
    simp only [List.mem_cons] at ha
    rcases ha with rfl | ha
    · exact lt_of_cell hs
    · exact seg_lt hr.seg a ha)
  simp at h2
  omega

theorem traverse_rep {h : Heap T} {l : MyList} {s : Nat} {cells : List (Nat × T)}
    (hr : Rep h l s cells) (hne : cells ≠ []) : traverse h l = .ok (cells.map Prod.snd) := by
  have := hr.length_lt
  rw [traverse, end_, begin_, hr.sentinel, hr.start, headPtr_of_ne_nil hne none (some s)]
  exact traverseLoop_seg hr.seg hr.fresh _ (by omega)

theorem elements_rep {h : Heap T} {l : MyList} {s : Nat} {cells : List (Nat × T)}
    (hr : Rep h l s cells) : elements h l = .ok (cells.map Prod.snd) := by
  cases cells with
  | nil => simp [elements, empty, hr.start, pure, Except.pure]
  | cons c cs =>
    have := traverse_rep hr (by simp)
    simp [elements, empty, hr.start, this]

theorem empty_rep {h : Heap T} {l : MyList} {s : Nat} {cells : List (Nat × T)}
    (hr : Rep h l s cells) : l.empty = true ↔ cells = [] := by
  simp [empty, hr.start, headPtr_eq_none]

theorem construct_rep [Inhabited T] (h0 : Heap T) :
    Rep (construct h0).1 (construct h0).2 h0.length [] := by
  refine ⟨rfl, rfl, rfl, rfl, by simp, by simp, trivial, default, none, ?_, Or.inl rfl⟩
  simp [construct, Heap.new, cell_push_self, Node.default]

/-! ## Insertion, removal and assignment at an element -/

theorem nodup_insert_fresh {xs ys : List (Nat × T)} {n : Nat} (v : T)
    (hnd : ((xs ++ ys).map Prod.fst).Nodup) (hn : n ∉ (xs ++ ys).map Prod.fst) :
    ((xs ++ (n, v) :: ys).map Prod.fst).Nodup := by
  simp only [List.map_append, List.map_cons] at hnd hn ⊢
  exact List.nodup_middle.2 (List.nodup_cons.2 ⟨hn, hnd⟩)

theorem not_mem_insert {xs ys : List (Nat × T)} {n s : Nat} (v : T)
    (hs : s ∉ (xs ++ ys).map Prod.fst) (hn : s ≠ n) :
    s ∉ (xs ++ (n, v) :: ys).map Prod.fst := by
  simp only [List.map_append, List.map_cons, List.mem_append, List.mem_cons, not_or] at hs ⊢
  exact ⟨hs.1, hn, hs.2⟩

theorem nodup_remove {xs ys : List (Nat × T)} {c : Nat × T}
    (hnd : ((xs ++ c :: ys).map Prod.fst).Nodup) :
    ((xs ++ ys).map Prod.fst).Nodup ∧ c.1 ∉ (xs ++ ys).map Prod.fst := by
  simp only [List.map_append, List.map_cons] at hnd ⊢
  have := List.nodup_cons.1 (List.nodup_middle.1 hnd)
  exact ⟨this.2, this.1⟩

theorem not_mem_remove {xs ys : List (Nat × T)} {c : Nat × T} {s : Nat}
    (hs : s ∉ (xs ++ c :: ys).map Prod.fst) :
    s ∉ (xs ++ ys).map Prod.fst ∧ s ≠ c.1 := by
  simp only [List.map_append, List.map_cons, List.mem_append, List.mem_cons, not_or] at hs ⊢
  exact ⟨⟨hs.1, hs.2.2⟩, hs.2.1⟩

theorem ne_of_nodup_append {as bs : List Nat} (h : (as ++ bs).Nodup) {a b : Nat}
    (ha : a ∈ as) (hb : b ∈ bs) : a ≠ b :=
  fun hab => (List.nodup_append.1 h).2.2 ha (hab ▸ hb)

theorem insert_rep {h : Heap T} {l : MyList} {s : Nat} {xs ys : List (Nat × T)} {c : Nat × T}
    (hr : Rep h l s (xs ++ c :: ys)) (v : T) :
    ∃ h' l', insert h l ⟨some c.1⟩ v = .ok (h', l') ∧
      Frame h h' ((xs.reverse.take 1 ++ [c]).map Prod.fst) ∧
      Rep h' l' s (xs ++ (h.length, v) :: c :: ys) := by
  rcases eq_nil_or_snoc xs with rfl | ⟨xs, ⟨p, vp⟩, rfl⟩
  · obtain ⟨h', l', he, hf, hrep⟩ := push_front_rep hr v
    refine ⟨h', l', ?_, hf.mono ?_, hrep⟩
    · have := hr.start
      simp only [List.nil_append, headPtr_cons] at this
      simp [insert, Iterator.getCurrent, this, he]
    · intro a ha
      simp at ha
      simp [ha]
  · obtain ⟨c, vc⟩ := c
    obtain ⟨hsen, hst, hla, hsz, hnd, hfr, hseg, d, sp, hs, hsp⟩ := hr
    have hslt := lt_of_cell hs
    have hlt := seg_lt hseg
    have hc := seg_cell hseg
    have hp := seg_cell
      (show Seg h none (xs ++ (p, vp) :: (c, vc) :: ys) (some s) by simpa using hseg)
    simp only [lastPtr_append, lastPtr_cons, lastPtr_nil, headPtr_cons] at hc hp
    have hseg' := hseg
    rw [List.append_assoc, seg_append, List.singleton_append, seg_cons, seg_cons] at hseg'
    obtain ⟨hxs, -, -, hys⟩ := hseg'
    simp only [headPtr_cons] at hxs
    have hplt := lt_of_cell hp
    have hclt := lt_of_cell hc
    have hndl : (xs.map Prod.fst ++ p :: c :: ys.map Prod.fst).Nodup := by simpa using hnd
    have hndr := List.nodup_cons.1 (List.nodup_append.1 hndl).2.1
    have hndc := List.nodup_cons.1 hndr.2
    have hfs : s ∉ xs.map Prod.fst ∧ s ≠ p ∧ s ≠ c ∧ s ∉ ys.map Prod.fst := by
      simpa [not_or] using hfr
    have hpc : p ≠ c := fun hc => hndr.1 (by simp [hc])
    have hxp : ∀ b ∈ xs.map Prod.fst, b ≠ p := fun b hb =>
      ne_of_nodup_append hndl hb (by simp)
    have hxc : ∀ b ∈ xs.map Prod.fst, b ≠ c := fun b hb =>
      ne_of_nodup_append hndl hb (by simp)
    have hyp : ∀ b ∈ ys.map Prod.fst, b ≠ p := fun b hb hc =>
      hndr.1 (by simp [← hc, hb])
    have hyc : ∀ b ∈ ys.map Prod.fst, b ≠ c := fun b hb hc => hndc.1 (hc ▸ hb)
    obtain ⟨y, hy, hhead⟩ := headPtr_mem xs p
    rw [List.append_assoc, headPtr_append, List.singleton_append, headPtr_cons] at hst
    have hcy : c ≠ y := by
      rintro rfl
      simp only [List.mem_append, List.mem_singleton] at hy
      rcases hy with hy | hy
      · exact hxc _ hy rfl
      · exact hpc hy.symm
    have hcs : c ≠ s := hfs.2.2.1.symm
    have hps : p ≠ s := hfs.2.1.symm
    have hpn : p ≠ h.length := by omega
    have hcn : c ≠ h.length := by omega
    generalize hres : insert h l ⟨some c⟩ v = res
    simp [insert, Iterator.getCurrent, hst, hhead, hcy, hsen, hcs, Heap.read, Heap.new,
      Heap.modify, bind, Except.bind, pure, Except.pure, hc, hp, cell_push_old _ hclt,
      cell_push_old _ hplt, cell_put_other _ hpc] at hres
    subst hres
    refine ⟨_, _, rfl, and_of_imp ⟨by simp, fun b hb hbs => ?_⟩ fun hframe => ?_⟩
    · simp at hbs
      rw [cell_put_other _ (Ne.symm hbs.2), cell_put_other _ (Ne.symm hbs.1),
        cell_push_old _ hb]
    · have hfr2 : ∀ b, b < h.length → b ≠ p → b ≠ c → _ :=
        fun b hb h1 h2 => hframe.2 b hb (by simp [h1, h2])
      have hnew : h.length ∉ ((xs ++ [(p, vp)]) ++ (c, vc) :: ys).map Prod.fst :=
        fun hc => absurd (hlt _ hc) (lt_irrefl _)
      refine ⟨rfl, ?_, ?_, ?_, nodup_insert_fresh v hnd hnew,
        not_mem_insert v hfr (by omega), ?_, d, sp, ?_, ?_⟩
      · simp [hst, hhead]
      · simpa using hla
      · simp [hsz]; ring
      · rw [List.append_assoc, seg_append, List.singleton_append, seg_cons, seg_cons, seg_cons]
        refine ⟨seg_congr (fun b hb => hfr2 b (seg_lt hxs b hb) (hxp b hb) (hxc b hb)) hxs,
          ?_, ?_, ?_, seg_congr (fun b hb => hfr2 b (seg_lt hys b hb) (hyp b hb) (hyc b hb)) hys⟩
        · simp [cell_put_other _ (Ne.symm hpc), cell_put_self, hplt, Nat.lt_succ_of_lt]
        · simp [cell_put_other _ hcn, cell_put_other _ hpn, cell_push_self]
        · simp [cell_put_self, hclt, Nat.lt_succ_of_lt]
      · rw [hfr2 s hslt hps.symm hcs.symm, hs]
      · simpa using hsp

theorem erase_rep {h : Heap T} {l : MyList} {s : Nat} {xs ys : List (Nat × T)} {c : Nat × T}
    (hr : Rep h l s (xs ++ c :: ys)) :
    ∃ h' l', erase h l ⟨some c.1⟩ = .ok (h', l') ∧
      (xs ≠ [] → ys ≠ [] → Frame h h' ((xs.reverse.take 1 ++ c :: ys.take 1).map Prod.fst)) ∧
      Frame h h' (s :: (xs ++ c :: ys).map Prod.fst) ∧
      Rep h' l' s (xs ++ ys) ∧ h'.length = h.length := by
  rcases eq_nil_or_snoc xs with rfl | ⟨xs, ⟨p, vp⟩, rfl⟩
  · obtain ⟨h', l', he, -, hf, hrep, hlen⟩ := pop_front_rep hr
    refine ⟨h', l', ?_, fun hc => absurd rfl hc, hf.mono ?_, hrep, hlen⟩
    · have := hr.start
      simp only [List.nil_append, headPtr_cons] at this
      simp [erase, Iterator.getCurrent, this, he]
    · intro a ha
      simp only [List.nil_append, List.mem_cons, List.mem_map] at ha ⊢
      rcases ha with rfl | ⟨x, hx, rfl⟩
      · exact Or.inl rfl
      · exact Or.inr ⟨x, by simpa using List.mem_of_mem_take hx, rfl⟩
  obtain ⟨c, vc⟩ := c
  have hst := hr.start
  have hla := hr.last
  have hndl : (xs.map Prod.fst ++ p :: c :: ys.map Prod.fst).Nodup := by simpa using hr.nodup
  have hndr := List.nodup_cons.1 (List.nodup_append.1 hndl).2.1
  have hndc := List.nodup_cons.1 hndr.2
  have hpc : p ≠ c := fun hc => hndr.1 (by simp [hc])
  have hxc : ∀ b ∈ xs.map Prod.fst, b ≠ c := fun b hb =>
    ne_of_nodup_append hndl hb (by simp)
  obtain ⟨y, hy, hhead⟩ := headPtr_mem xs p
  rw [List.append_assoc, headPtr_append, List.singleton_append, headPtr_cons] at hst
  have hcy : c ≠ y := by
    rintro rfl
    simp only [List.mem_append, List.mem_singleton] at hy
    rcases hy with hy | hy
    · exact hxc _ hy rfl
    · exact hpc hy.symm
  cases ys with
  | nil =>
    obtain ⟨h', l', he, hf, hrep, hlen, -⟩ := pop_back_rep hr
    rw [List.dropLast_concat] at hrep
    refine ⟨h', l', ?_, fun _ hc => absurd rfl hc, hf.mono ?_, by simpa using hrep, hlen⟩
    · simp only [lastPtr_append, lastPtr_cons, lastPtr_nil] at hla
      simp [erase, Iterator.getCurrent, hst, hhead, hcy, hla, he]
    · intro a ha
      simp only [List.mem_cons, List.mem_map] at ha ⊢
      rcases ha with rfl | ⟨x, hx, rfl⟩
      · exact Or.inl rfl
      · exact Or.inr ⟨x, by simpa using List.mem_reverse.1 (List.mem_of_mem_take hx), rfl⟩
  | cons q ys =>
    obtain ⟨q, vq⟩ := q
    obtain ⟨hsen, -, -, hsz, hnd, hfr, hseg, d, sp, hs, hsp⟩ := hr
    have hslt := lt_of_cell hs
    have hlt := seg_lt hseg
    have hc := seg_cell hseg
    have hp := seg_cell
      (show Seg h none (xs ++ (p, vp) :: (c, vc) :: (q, vq) :: ys) (some s) by
        simpa using hseg)
    have hq := seg_cell
      (show Seg h none ((xs ++ [(p, vp), (c, vc)]) ++ (q, vq) :: ys) (some s) by
        simpa using hseg)
    simp only [lastPtr_append, lastPtr_cons, lastPtr_nil, headPtr_cons] at hc hp hq
    have hseg' := hseg
    rw [List.append_assoc, seg_append, List.singleton_append, seg_cons, seg_cons, seg_cons]
      at hseg'
    obtain ⟨hxs, -, -, -, hys⟩ := hseg'
    simp only [headPtr_cons] at hxs
    have hplt := lt_of_cell hp
    have hclt := lt_of_cell hc
    have hqlt := lt_of_cell hq
    have hndq := List.nodup_cons.1 hndc.2
    have hfs : s ∉ xs.map Prod.fst ∧ s ≠ p ∧ s ≠ c ∧ s ≠ q ∧ s ∉ ys.map Prod.fst := by
      simpa [not_or] using hfr
    have hcq : c ≠ q := fun hc => hndc.1 (by simp [hc])
    have hpq : p ≠ q := fun hc => hndr.1 (by simp [hc])
    have hxp : ∀ b ∈ xs.map Prod.fst, b ≠ p := fun b hb =>
      ne_of_nodup_append hndl hb (by simp)
    have hxq : ∀ b ∈ xs.map Prod.fst, b ≠ q := fun b hb =>
      ne_of_nodup_append hndl hb (by simp)
    have hyp : ∀ b ∈ ys.map Prod.fst, b ≠ p := fun b hb hc =>
      hndr.1 (by simp [← hc, hb])
    have hyc : ∀ b ∈ ys.map Prod.fst, b ≠ c := fun b hb hc =>
      hndc.1 (by simp [← hc, hb])
    have hyq : ∀ b ∈ ys.map Prod.fst, b ≠ q := fun b hb hc => hndq.1 (hc ▸ hb)
    obtain ⟨z, hz, hlast⟩ := lastPtr_mem ys q
    simp only [lastPtr_append, lastPtr_cons, lastPtr_nil] at hla hsp
    have hcz : c ≠ z := by
      rintro rfl
      simp only [List.mem_cons] at hz
      rcases hz with hz | hz
      · exact hcq hz
      · exact hyc _ hz rfl
    generalize hres : erase h l ⟨some c⟩ = res
    simp [erase, Iterator.getCurrent, hst, hhead, hcy, hla, hlast, hcz, hsen, Heap.read,
      Heap.modify, Heap.delete, bind, Except.bind, pure, Except.pure, hc, hp, hq,
      cell_put_other _ hpc, cell_put_other _ hpq, cell_put_other _ hcq.symm] at hres
    subst hres
    refine ⟨_, _, rfl, and_of_imp (fun _ _ => ⟨by simp, fun b hb hbs => ?_⟩) fun hframe => ?_⟩
    · simp at hbs
      rw [cell_put_other _ (Ne.symm hbs.2.1), cell_put_other _ (Ne.symm hbs.2.2),
        cell_put_other _ (Ne.symm hbs.1)]
    · have hfr2 : ∀ b, b < h.length → b ≠ p → b ≠ c → b ≠ q → _ :=
        fun b hb h1 h2 h3 => (hframe (by simp) (by simp)).2 b hb (by simp [h1, h2, h3])
      refine ⟨(hframe (by simp) (by simp)).mono ?_, ?_, by simp⟩
      · intro a ha
        simp at ha
        rcases ha with rfl | rfl | rfl <;> simp
      have hrem := nodup_remove hnd
      have hfrem := not_mem_remove hfr
      refine ⟨rfl, ?_, ?_, ?_, hrem.1, hfrem.1, ?_, d, sp, ?_, ?_⟩
      · simp [hst, hhead]
      · simp [hlast]
      · simp [hsz]; ring
      · rw [List.append_assoc, seg_append, List.singleton_append, seg_cons, seg_cons]
        refine ⟨seg_congr (fun b hb => hfr2 b (seg_lt hxs b hb) (hxp b hb) (hxc b hb)
          (hxq b hb)) hxs, ?_, ?_,
          seg_congr (fun b hb => hfr2 b (seg_lt hys b hb) (hyp b hb) (hyc b hb) (hyq b hb)) hys⟩
        · simp [cell_put_other _ hpc.symm, cell_put_other _ hpq.symm, cell_put_self, hplt]
        · simp [cell_put_other _ hcq, cell_put_self, hqlt]
      · rw [hfr2 s hslt hfs.2.1 hfs.2.2.1 hfs.2.2.2.1, hs]
      · simpa using hsp

theorem assign_rep {h : Heap T} {l : MyList} {s : Nat} {xs ys : List (Nat × T)} {c : Nat × T}
    (hr : Rep h l s (xs ++ c :: ys)) (v : T) :
    ∃ h', Iterator.assign h ⟨some c.1⟩ v = .ok h' ∧ Frame h h' [c.1] ∧
      Rep h' l s (xs ++ (c.1, v) :: ys) ∧ h'.length = h.length := by
  obtain ⟨c, vc⟩ := c
  obtain ⟨hsen, hst, hla, hsz, hnd, hfr, hseg, d, sp, hs, hsp⟩ := hr
  have hslt := lt_of_cell hs
  have hc := seg_cell hseg
  have hclt := lt_of_cell hc
  have hndl : (xs.map Prod.fst ++ c :: ys.map Prod.fst).Nodup := by simpa using hnd
  have hndr := List.nodup_cons.1 (List.nodup_append.1 hndl).2.1
  have hxc : ∀ b ∈ xs.map Prod.fst, b ≠ c := fun b hb =>
    ne_of_nodup_append hndl hb (by simp)
  have hyc : ∀ b ∈ ys.map Prod.fst, b ≠ c := fun b hb hc => hndr.1 (hc ▸ hb)
  have hfs : s ∉ xs.map Prod.fst ∧ s ≠ c ∧ s ∉ ys.map Prod.fst := by
    simpa [not_or] using hfr
  rw [seg_append, seg_cons] at hseg
  obtain ⟨hxs, -, hys⟩ := hseg
  generalize hres : Iterator.assign h ⟨some c⟩ v = res
  simp [Iterator.assign, Heap.modify, hc] at hres
  subst hres
  refine ⟨_, rfl, and_of_imp ⟨by simp, fun b hb hbs => ?_⟩ fun hframe => ⟨?_, by simp⟩⟩
  · simp at hbs
    rw [cell_put_other _ (Ne.symm hbs)]
  · have hfr2 : ∀ b, b < h.length → b ≠ c → _ :=
      fun b hb h1 => hframe.2 b hb (by simp [h1])
    refine ⟨hsen, ?_, ?_, ?_, ?_, ?_, ?_, d, sp, ?_, ?_⟩
    · simpa using hst
    · simpa using hla
    · simpa using hsz
    · simpa using hnd
    · simpa using hfr
    · rw [seg_append, seg_cons]
      refine ⟨seg_congr (fun b hb => hfr2 b (seg_lt hxs b hb) (hxc b hb)) hxs, ?_,
        seg_congr (fun b hb => hfr2 b (seg_lt hys b hb) (hyc b hb)) hys⟩
      simp [cell_put_self, hclt]
    · rw [hfr2 s hslt hfs.2.1, hs]
    · simpa using hsp

/-! ## Every mutator keeps a list well formed -/

theorem push_back_step {h h' : Heap T} {l l' : MyList} {s : Nat} {cells : List (Nat × T)}
    (hr : Rep h l s cells) {v : T} (he : push_back h l v = .ok (h', l')) :
    ∃ cells', Rep h' l' s cells' ∧ Frame h h' (footprint s cells) ∧
      ∀ a ∈ cells'.map Prod.fst, a ∈ cells.map Prod.fst ∨ h.length ≤ a := by
  obtain ⟨h2, l2, he2, hf, hrep, -⟩ := push_back_rep hr v
  rw [he] at he2
  cases he2
  refine ⟨_, hrep, hf.mono ?_, ?_⟩
  · intro a ha
    simp only [List.mem_cons, List.mem_map, footprint] at ha ⊢
    rcases ha with rfl | ⟨x, hx, rfl⟩
    · exact Or.inl rfl
    · exact Or.inr ⟨x, List.mem_reverse.1 (List.mem_of_mem_take hx), rfl⟩
  · intro a ha
    simp only [List.map_append, List.mem_append, List.map_cons, List.map_nil,
      List.mem_singleton] at ha
    rcases ha with ha | rfl
    · exact Or.inl ha
    · exact Or.inr (le_refl _)

theorem push_front_step {h h' : Heap T} {l l' : MyList} {s : Nat} {cells : List (Nat × T)}
    (hr : Rep h l s cells) {v : T} (he : push_front h l v = .ok (h', l')) :
    ∃ cells', Rep h' l' s cells' ∧ Frame h h' (footprint s cells) ∧
      ∀ a ∈ cells'.map Prod.fst, a ∈ cells.map Prod.fst ∨ h.length ≤ a := by
  obtain ⟨h2, l2, he2, hf, hrep⟩ := push_front_rep hr v
  rw [he] at he2
  cases he2
  refine ⟨_, hrep, hf.mono ?_, ?_⟩
  · intro a ha
    simp only [List.mem_cons, List.mem_map, footprint] at ha ⊢
    obtain ⟨x, hx, rfl⟩ := ha
    exact Or.inr ⟨x, List.mem_of_mem_take hx, rfl⟩
  · intro a ha
    simp only [List.map_cons, List.mem_cons] at ha
    rcases ha with rfl | ha
    · exact Or.inr (le_refl _)
    · exact Or.inl ha

theorem pop_back_step {h h' : Heap T} {l l' : MyList} {s : Nat} {cells : List (Nat × T)}
    (hr : Rep h l s cells) (he : pop_back h l = .ok (h', l')) :
    ∃ cells', Rep h' l' s cells' ∧ Frame h h' (footprint s cells) ∧
      ∀ a ∈ cells'.map Prod.fst, a ∈ cells.map Prod.fst ∨ h.length ≤ a := by
  obtain ⟨h2, l2, he2, hf, hrep, -, -⟩ := pop_back_rep hr
  rw [he] at he2
  cases he2
  refine ⟨_, hrep, hf.mono ?_, ?_⟩
  · intro a ha
    simp only [List.mem_cons, List.mem_map, footprint] at ha ⊢
    rcases ha with rfl | ⟨x, hx, rfl⟩
    · exact Or.inl rfl
    · exact Or.inr ⟨x, List.mem_reverse.1 (List.mem_of_mem_take hx), rfl⟩
  · intro a ha
    simp only [List.mem_map] at ha ⊢
    obtain ⟨x, hx, rfl⟩ := ha
    exact Or.inl ⟨x, List.mem_of_mem_dropLast hx, rfl⟩

theorem pop_front_step {h h' : Heap T} {l l' : MyList} {s : Nat} {cells : List (Nat × T)}
    (hr : Rep h l s cells) (he : pop_front h l = .ok (h', l')) :
    ∃ cells', Rep h' l' s cells' ∧ Frame h h' (footprint s cells) ∧
      ∀ a ∈ cells'.map Prod.fst, a ∈ cells.map Prod.fst ∨ h.length ≤ a := by
  obtain ⟨h2, l2, he2, -, hf, hrep, -⟩ := pop_front_rep hr
  rw [he] at he2
  cases he2
  refine ⟨_, hrep, hf.mono ?_, ?_⟩
  · intro a ha
    simp only [List.mem_cons, List.mem_map, footprint] at ha ⊢
    rcases ha with rfl | ⟨x, hx, rfl⟩
    · exact Or.inl rfl
    · exact Or.inr ⟨x, List.mem_of_mem_take hx, rfl⟩
  · intro a ha
    simp only [List.mem_map] at ha ⊢
    obtain ⟨x, hx, rfl⟩ := ha
    exact Or.inl ⟨x, List.mem_of_mem_tail hx, rfl⟩

theorem insert_begin_eq (h : Heap T) (l : MyList) (v : T) :
    insert h l l.begin_ v = push_front h l v := by
  simp [insert, begin_, Iterator.getCurrent]

theorem startNode_ne_sentinel {h : Heap T} {l : MyList} {s : Nat} {cells : List (Nat × T)}
    (hr : Rep h l s cells) : l.sentinel ≠ l.startNode := by
  rw [hr.sentinel, hr.start]
  cases cells with
  | nil => simp
  | cons c cs =>
    have := hr.fresh
    simp only [List.map_cons, List.mem_cons, not_or] at this
    simpa using this.1

theorem insert_end_eq {h : Heap T} {l : MyList} {s : Nat} {cells : List (Nat × T)}
    (hr : Rep h l s cells) (v : T) : insert h l l.end_ v = push_back h l v := by
  simp [insert, end_, Iterator.getCurrent, startNode_ne_sentinel hr]

theorem step_rep {h h' : Heap T} {l l' : MyList} {s : Nat} {cells : List (Nat × T)}
    (hr : Rep h l s cells) (hstep : Step h l h' l') :
    ∃ cells', Rep h' l' s cells' ∧ Frame h h' (footprint s cells) ∧
      ∀ a ∈ cells'.map Prod.fst, a ∈ cells.map Prod.fst ∨ h.length ≤ a := by
  cases hstep with
  | push_back v he => exact push_back_step hr he
  | push_front v he => exact push_front_step hr he
  | pop_back he => exact pop_back_step hr he
  | pop_front he => exact pop_front_step hr he
  | insert it v hpos he =>
    rcases hpos with rfl | rfl | hit
    · rw [insert_begin_eq] at he
      exact push_front_step hr he
    · rw [insert_end_eq hr] at he
      exact push_back_step hr he
    · obtain ⟨xs, c, ys, rfl, rfl⟩ := atElement_rep hr hit
      obtain ⟨h2, l2, he2, hf, hrep⟩ := insert_rep hr v
      rw [he] at he2
      cases he2
      refine ⟨_, hrep, hf.mono ?_, ?_⟩
      · intro a ha
        simp only [List.mem_map, footprint, List.mem_cons, List.mem_append,
          List.mem_singleton] at ha ⊢
        obtain ⟨x, hx | hx, rfl⟩ := ha
        · exact Or.inr ⟨x, Or.inl (List.mem_reverse.1 (List.mem_of_mem_take hx)), rfl⟩
        · exact Or.inr ⟨x, Or.inr (Or.inl (by simpa using hx)), rfl⟩
      · intro a ha
        simp only [List.map_append, List.mem_append, List.map_cons, List.mem_cons] at ha ⊢
        rcases ha with ha | rfl | ha
        · exact Or.inl (Or.inl ha)
        · exact Or.inr (le_refl _)
        · exact Or.inl (Or.inr ha)
  | erase it hit he =>
    obtain ⟨xs, c, ys, rfl, rfl⟩ := atElement_rep hr hit
    obtain ⟨h2, l2, he2, -, hf, hrep, -⟩ := erase_rep hr
    rw [he] at he2
    cases he2
    refine ⟨_, hrep, hf, ?_⟩
    intro a ha
    simp only [List.map_append, List.mem_append, List.map_cons, List.mem_cons] at ha ⊢
    rcases ha with ha | ha
    · exact Or.inl (Or.inl ha)
    · exact Or.inl (Or.inr (Or.inr ha))
  | assign it v hit he =>
    obtain ⟨xs, c, ys, rfl, rfl⟩ := atElement_rep hr hit
    obtain ⟨h2, he2, hf, hrep, -⟩ := assign_rep hr v
    rw [he] at he2
    cases he2
    refine ⟨_, hrep, hf.mono ?_, ?_⟩
    · intro a ha
      simp only [List.mem_singleton] at ha
      subst ha
      simp [footprint]
    · intro a ha
      simp only [List.map_append, List.mem_append, List.map_cons, List.mem_cons] at ha ⊢
      exact Or.inl ha

theorem steps_rep {h h' : Heap T} {l l' : MyList} {s : Nat} {cells : List (Nat × T)}
    (hr : Rep h l s cells) (hsteps : Steps h l h' l') : ∃ cells', Rep h' l' s cells' := by
  induction hsteps with
  | refl => exact ⟨cells, hr⟩
  | tail _ hstep ih =>
    obtain ⟨cells1, hr1⟩ := ih hr
    obtain ⟨cells2, hr2, -⟩ := step_rep hr1 hstep
    exact ⟨cells2, hr2⟩

theorem reachable_rep [Inhabited T] {h : Heap T} {l : MyList} (hr : Reachable h l) :
    ∃ s cells, Rep h l s cells := by
  obtain ⟨h0, hsteps⟩ := hr
  obtain ⟨cells, hrep⟩ := steps_rep (construct_rep h0) hsteps
  exact ⟨_, cells, hrep⟩

/-! ## Construction from values and by copy -/

theorem Rep.frame {h h' : Heap T} {l : MyList} {s : Nat} {cells : List (Nat × T)}
    (hr : Rep h l s cells) (hf : ∀ a ∈ footprint s cells, h'.cell a = h.cell a) :
    Rep h' l s cells := by
  obtain ⟨hsen, hst, hla, hsz, hnd, hfr, hseg, d, sp, hs, hsp⟩ := hr
  refine ⟨hsen, hst, hla, hsz, hnd, hfr, seg_congr (fun a ha => hf a ?_) hseg, d, sp, ?_, hsp⟩
  · exact List.mem_cons_of_mem _ ha
  · rw [hf s (List.mem_cons_self _ _), hs]

theorem Rep.lt {h : Heap T} {l : MyList} {s : Nat} {cells : List (Nat × T)}
    (hr : Rep h l s cells) : ∀ a ∈ footprint s cells, a < h.length := by
  intro a ha
  simp only [footprint, List.mem_cons] at ha
  rcases ha with rfl | ha
  · obtain ⟨d, sp, hs, -⟩ := hr.sent
    exact lt_of_cell hs
  · exact seg_lt hr.seg a ha

theorem pushAll_rep {h : Heap T} {l : MyList} {s : Nat} {cells : List (Nat × T)}
    (hr : Rep h l s cells) (vs : List T) :
    ∃ h' l' cells', pushAll h l vs = .ok (h', l') ∧ Rep h' l' s cells' ∧
      cells'.map Prod.snd = cells.map Prod.snd ++ vs := by
  induction vs generalizing h l cells with
  | nil => exact ⟨h, l, cells, rfl, hr, by simp⟩
  | cons v vs ih =>
    obtain ⟨h1, l1, he, -, hr1, -⟩ := push_back_rep hr v
    obtain ⟨h2, l2, cells2, he2, hr2, hv⟩ := ih hr1
    refine ⟨h2, l2, cells2, ?_, hr2, ?_⟩
    · simp [pushAll, bind, Except.bind, he, he2]
    · simp [hv]

theorem copyLoop_rep {h : Heap T} {other : MyList} {s : Nat} {cells : List (Nat × T)}
    (hro : Rep h other s cells) (rest : List (Nat × T)) :
    ∀ (done : List (Nat × T)) (fuel : Nat) (hc : Heap T) (l : MyList) (s' : Nat)
      (new : List (Nat × T)), cells = done ++ rest → rest.length < fuel →
      Rep hc l s' new → (∀ a, a < h.length → hc.cell a = h.cell a) →
      (∀ a ∈ footprint s' new, h.length ≤ a) → new.map Prod.snd = done.map Prod.snd →
      ∃ h' l' new', copyLoop other fuel hc l (headPtr rest (some s)) = .ok (h', l') ∧
        Rep h' l' s' new' ∧ new'.map Prod.snd = cells.map Prod.snd ∧
        (∀ a, a < h.length → h'.cell a = h.cell a) ∧
        (∀ a ∈ footprint s' new', h.length ≤ a) := by
  induction rest with
  | nil =>
    intro done fuel hc l s' new hsplit hfuel hrl hold hnew hvals
    obtain ⟨fuel, rfl⟩ : ∃ k, fuel = k + 1 := ⟨fuel - 1, by omega⟩
    refine ⟨hc, l, new, ?_, hrl, ?_, hold, hnew⟩
    · simp [copyLoop, hro.sentinel, pure, Except.pure]
    · simp [hsplit, hvals]
  | cons c rest ih =>
    intro done fuel hc l s' new hsplit hfuel hrl hold hnew hvals
    obtain ⟨fuel, rfl⟩ : ∃ k, fuel = k + 1 := ⟨fuel - 1, by omega⟩
    have hseg := hro.seg
    rw [hsplit] at hseg
    have hcell := seg_cell hseg
    have hclt := lt_of_cell hcell
    have hcs : c.1 ≠ s := by
      have := hro.fresh
      rw [hsplit] at this
      intro hc
      exact this (by simp [← hc])
    obtain ⟨h1, l1, he, hf, hr1, -⟩ := push_back_rep hrl c.2
    have hold1 : ∀ a, a < h.length → h1.cell a = h.cell a := by
      intro a ha
      have hs'lt := hrl.lt s' (List.mem_cons_self _ _)
      have := hnew s' (List.mem_cons_self _ _)
      rw [hf.2 a (by omega) ?_, hold a ha]
      intro hmem
      have hmem' : a ∈ footprint s' new := by
        simp only [List.mem_cons, List.mem_map, footprint] at hmem ⊢
        rcases hmem with rfl | ⟨x, hx, rfl⟩
        · exact Or.inl rfl
        · exact Or.inr ⟨x, List.mem_reverse.1 (List.mem_of_mem_take hx), rfl⟩
      have := hnew a hmem'
      omega
    obtain ⟨h2, l2, new2, he2, hr2, hv2, hold2, hnew2⟩ :=
      ih (done ++ [c]) fuel h1 l1 s' (new ++ [(hc.length, c.2)]) (by simp [hsplit])
        (by simp at hfuel; omega) hr1 hold1 (by
          intro a ha
          simp only [footprint, List.map_append, List.map_cons, List.map_nil, List.mem_cons,
            List.mem_append, List.mem_singleton, List.not_mem_nil, or_false] at ha
          have hs'lt := hrl.lt s' (List.mem_cons_self _ _)
          have := hnew s' (List.mem_cons_self _ _)
          rcases ha with rfl | ha | rfl
          · exact this
          · exact hnew a (List.mem_cons_of_mem _ ha)
          · omega) (by simp [hvals])
    refine ⟨h2, l2, new2, ?_, hr2, hv2, hold2, hnew2⟩
    simp [copyLoop, hro.sentinel, hcs, Heap.read, hold _ hclt, hold1 _ hclt, hcell, bind,
      Except.bind, he, he2]

theorem copyConstruct_rep [Inhabited T] {h : Heap T} {other : MyList} {s : Nat}
    {cells : List (Nat × T)} (hro : Rep h other s cells) (hne : cells ≠ []) :
    ∃ h' l' cells', copyConstruct h other = .ok (h', l') ∧ Rep h' l' h.length cells' ∧
      cells'.map Prod.snd = cells.map Prod.snd ∧ (∀ a, a < h.length → h'.cell a = h.cell a) ∧
      (∀ a ∈ footprint h.length cells', h.length ≤ a) := by
  have hlen := hro.length_lt
  have := copyLoop_rep hro cells [] (h.length + 1) (construct h).1 (construct h).2 h.length []
    rfl (by omega) (construct_rep h) (fun a ha => by simp [construct, Heap.new, cell_push_old _ ha])
    (by simp [footprint]) rfl
  rw [← headPtr_of_ne_nil hne none (some s), ← hro.start] at this
  exact this

theorem copyConstruct_nil [Inhabited T] {h : Heap T} {other : MyList} {s : Nat}
    (hro : Rep h other s []) : copyConstruct h other = .error .undefinedBehaviour := by
  have h1 : other.startNode = none := hro.start
  simp [copyConstruct, copyLoop, construct, Heap.new, h1, hro.sentinel, Heap.read, bind,
    Except.bind]

/-! ## Reachable lists -/

theorem Steps.head {h h1 h2 : Heap T} {l l1 l2 : MyList} (hstep : Step h l h1 l1)
    (hsteps : Steps h1 l1 h2 l2) : Steps h l h2 l2 := by
  induction hsteps with
  | refl => exact Steps.tail Steps.refl hstep
  | tail _ hlast ih => exact Steps.tail (ih hstep) hlast

theorem Steps.of_pushAll {h h' : Heap T} {l l' : MyList} {vs : List T}
    (he : pushAll h l vs = .ok (h', l')) : Steps h l h' l' := by
  induction vs generalizing h l with
  | nil =>
    simp only [pushAll, pure, Except.pure, Except.ok.injEq, Prod.mk.injEq] at he
    obtain ⟨rfl, rfl⟩ := he
    exact Steps.refl
  | cons v vs ih =>
    rw [pushAll] at he
    cases hp : push_back h l v with
    | error e => simp [hp, bind, Except.bind] at he
    | ok r =>
      obtain ⟨h1, l1⟩ := r
      simp only [hp, bind, Except.bind] at he
      exact Steps.head (Step.push_back v hp) (ih he)

theorem Steps.of_pushFrontAll {h h' : Heap T} {l l' : MyList} {vs : List T}
    (he : pushFrontAll h l vs = .ok (h', l')) : Steps h l h' l' := by
  induction vs generalizing h l with
  | nil =>
    simp only [pushFrontAll, pure, Except.pure, Except.ok.injEq, Prod.mk.injEq] at he
    obtain ⟨rfl, rfl⟩ := he
    exact Steps.refl
  | cons v vs ih =>
    rw [pushFrontAll] at he
    cases hp : push_front h l v with
    | error e => simp [hp, bind, Except.bind] at he
    | ok r =>
      obtain ⟨h1, l1⟩ := r
      simp only [hp, bind, Except.bind] at he
      exact Steps.head (Step.push_front v hp) (ih he)

theorem Reachable.of_constructFrom [Inhabited T] {h0 h : Heap T} {l : MyList} {vs : List T}
    (he : constructFrom h0 vs = .ok (h, l)) : Reachable h l :=
  ⟨h0, Steps.of_pushAll he⟩

theorem Reachable.step [Inhabited T] {h h' : Heap T} {l l' : MyList} (hr : Reachable h l)
    (hstep : Step h l h' l') : Reachable h' l' := by
  obtain ⟨h0, hs⟩ := hr
  exact ⟨h0, Steps.tail hs hstep⟩

theorem pushFrontAll_rep {h : Heap T} {l : MyList} {s : Nat} {cells : List (Nat × T)}
    (hr : Rep h l s cells) (vs : List T) :
    ∃ h' l' cells', pushFrontAll h l vs = .ok (h', l') ∧ Rep h' l' s cells' ∧
      cells'.map Prod.snd = vs.reverse ++ cells.map Prod.snd := by
  induction vs generalizing h l cells with
  | nil => exact ⟨h, l, cells, rfl, hr, by simp⟩
  | cons v vs ih =>
    obtain ⟨h1, l1, he, -, hr1⟩ := push_front_rep hr v
    obtain ⟨h2, l2, cells2, he2, hr2, hv⟩ := ih hr1
    refine ⟨h2, l2, cells2, ?_, hr2, ?_⟩
    · simp [pushFrontAll, bind, Except.bind, he, he2]
    · simp [hv]

theorem Rep.size_eq {h : Heap T} {l : MyList} {s : Nat} {cells : List (Nat × T)}
    (hr : Rep h l s cells) : l.size = (cells.map Prod.snd).length := by
  show l.listSize = _
  simp [hr.size]

theorem traverse_nil {h : Heap T} {l : MyList} {s : Nat} (hr : Rep h l s []) :
    traverse h l = .error .dereferencingNull := by
  have h1 : l.startNode = none := hr.start
  simp [traverse, traverseLoop, Iterator.ne, begin_, end_, h1, hr.sentinel, Iterator.deref,
    bind, Except.bind]

/-! ## Construction by pushes and traversal -/

/-- For every non-empty sequence `vs`, the list built by `push_back` of each value (the
initializer-list constructor) has `size()` equal to the length of `vs`, and the traversal
from `begin()` to `end()` dereferences the values of `vs` in push order. -/
theorem traverse_constructFrom [Inhabited T] (h0 : Heap T) (vs : List T) (hne : vs ≠ []) :
    ∃ h l, constructFrom h0 vs = .ok (h, l) ∧ l.size = vs.length ∧
      traverse h l = .ok vs := by
  obtain ⟨h, l, cells, he, hr, hv⟩ := pushAll_rep (construct_rep h0) vs
  simp only [List.map_nil, List.nil_append] at hv
  refine ⟨h, l, he, by rw [hr.size_eq, hv], ?_⟩
  rw [traverse_rep hr (by rintro rfl; exact hne (by simpa using hv.symm)), hv]

theorem traverse_constructFrom_witness :
    ∃ h l, constructFrom ([] : Heap Int) [1, 2, 3] = .ok (h, l) ∧
      l.size = ([1, 2, 3] : List Int).length ∧ traverse h l = .ok [1, 2, 3] :=
  traverse_constructFrom [] [1, 2, 3] (by decide)

/-- C1, at the input where the code departs from it: for the empty sequence of values the
initializer-list constructor builds a list of `size()` 0 whose `begin()` is the null
iterator and differs from `end()`, so the traversal from `begin()` to `end()` raises
"Dereferencing null" instead of visiting no value. -/
theorem traverse_constructFrom_nil [Inhabited T] (h0 : Heap T) :
    ∃ h l, constructFrom h0 ([] : List T) = .ok (h, l) ∧ l.size = 0 ∧
      l.begin_ = ⟨none⟩ ∧ l.begin_.ne l.end_ = true ∧
      traverse h l = .error .dereferencingNull :=
  ⟨_, _, rfl, rfl, rfl, by simp [Iterator.ne, begin_, end_, construct, Heap.new],
    traverse_nil (construct_rep h0)⟩

/-- For every non-empty sequence `vs`, the list built from the empty list by `push_front`
of each value has `size()` equal to the length of `vs`, and the traversal from `begin()`
to `end()` yields the values in reverse push order. -/
theorem traverse_pushFrontAll [Inhabited T] (h0 : Heap T) (vs : List T) (hne : vs ≠ []) :
    ∃ h l, pushFrontAll (construct h0).1 (construct h0).2 vs = .ok (h, l) ∧
      l.size = vs.length ∧ traverse h l = .ok vs.reverse := by
  obtain ⟨h, l, cells, he, hr, hv⟩ := pushFrontAll_rep (construct_rep h0) vs
  simp only [List.map_nil, List.append_nil] at hv
  refine ⟨h, l, he, by rw [hr.size_eq, hv, List.length_reverse], ?_⟩
  rw [traverse_rep hr (by rintro rfl; exact hne (by simpa using hv.symm)), hv]

theorem traverse_pushFrontAll_witness :
    ∃ h l, pushFrontAll (construct ([] : Heap Int)).1 (construct ([] : Heap Int)).2 [1, 2, 3]
        = .ok (h, l) ∧
      l.size = ([1, 2, 3] : List Int).length ∧ traverse h l = .ok [3, 2, 1] :=
  traverse_pushFrontAll [] [1, 2, 3] (by decide)

/-- C2, at the input where the code departs from it: after no `push_front` at all the
list has `size()` 0, `begin()` is the null iterator and differs from `end()`, and the
forward traversal raises "Dereferencing null" instead of yielding no value. -/
theorem traverse_pushFrontAll_nil [Inhabited T] (h0 : Heap T) :
    ∃ h l, pushFrontAll (construct h0).1 (construct h0).2 ([] : List T) = .ok (h, l) ∧
      l.size = 0 ∧ l.begin_.ne l.end_ = true ∧
      traverse h l = .error .dereferencingNull :=
  ⟨_, _, rfl, rfl, by simp [Iterator.ne, begin_, end_, construct, Heap.new],
    traverse_nil (construct_rep h0)⟩

/-! ## Copy construction -/

/-- Copy-constructing from a reachable list that has elements completes and yields a list
with the same `size()` and the same front-to-back element sequence. -/
theorem copyConstruct_reachable [Inhabited T] {h : Heap T} {L : MyList}
    (hL : Reachable h L) (hne : L.size ≠ 0) :
    ∃ h1 C vs, copyConstruct h L = .ok (h1, C) ∧ C.size = L.size ∧
      elements h L = .ok vs ∧ elements h1 C = .ok vs := by
  obtain ⟨s, cells, hr⟩ := reachable_rep hL
  have hcne : cells ≠ [] := by
    rintro rfl
    exact hne (by rw [hr.size_eq]; rfl)
  obtain ⟨h1, C, cellsC, he, hrC, hv, -, -⟩ := copyConstruct_rep hr hcne
  exact ⟨h1, C, cells.map Prod.snd, he, by rw [hrC.size_eq, hr.size_eq, hv], elements_rep hr,
    by rw [elements_rep hrC, hv]⟩

/-- C3, at the input where the code departs from it: copy-constructing from the empty
list reads `n->data` with `n = other.startNode = nullptr`, which differs from the
sentinel, so the copy constructor goes through a null pointer instead of building an
empty list. -/
theorem copyConstruct_empty [Inhabited T] (h0 : Heap T) :
    copyConstruct (construct h0).1 (construct h0).2 = .error .undefinedBehaviour :=
  copyConstruct_nil (construct_rep h0)

theorem Steps.isolated {h1 h2 : Heap T} {L C C2 : MyList} {s sC : Nat}
    {cells cellsC : List (Nat × T)} (hC : Rep h1 C sC cellsC) (hL : Rep h1 L s cells)
    (hd : ∀ a ∈ footprint sC cellsC, a ∉ footprint s cells) (hsteps : Steps h1 C h2 C2) :
    ∃ cellsC2, Rep h2 C2 sC cellsC2 ∧ Rep h2 L s cells ∧
      ∀ a ∈ footprint sC cellsC2, a ∉ footprint s cells := by
  induction hsteps with
  | refl => exact ⟨cellsC, hC, hL, hd⟩
  | tail _ hstep ih =>
    obtain ⟨cells1, hC1, hL1, hd1⟩ := ih hC
    obtain ⟨cells2, hC2, hf, hnew⟩ := step_rep hC1 hstep
    refine ⟨cells2, hC2, hL1.frame (fun a ha => hf.2 a (hL1.lt a ha) ?_), ?_⟩
    · exact fun hc => hd1 a hc ha
    · intro a ha hmem
      simp only [footprint, List.mem_cons] at ha
      rcases ha with rfl | ha
      · exact hd1 a (List.mem_cons_self _ _) hmem
      · rcases hnew a ha with hold | hge
        · exact hd1 a (List.mem_cons_of_mem _ hold) hmem
        · have := hL1.lt a hmem
          omega

/-- C4: for a reachable list `L` and the copy `C` constructed from it, every sequence of
mutators applied to `C` (push_back, push_front, pop_back, pop_front, insert and erase at
iterators of `C`, assignment through iterators of `C`) leaves the front-to-back element
sequence of `L` as it was, with `L.size()` still its length, and the nodes of the mutated
copy are disjoint from the nodes of `L`. -/
theorem copy_isolated [Inhabited T] {h h1 h2 : Heap T} {L C C2 : MyList}
    (hL : Reachable h L) (hc : copyConstruct h L = .ok (h1, C)) (hm : Steps h1 C h2 C2) :
    ∃ vs, elements h L = .ok vs ∧ elements h2 L = .ok vs ∧ L.size = vs.length ∧
      ∃ s cells sC cellsC, Rep h2 L s cells ∧ Rep h2 C2 sC cellsC ∧
        ∀ a ∈ footprint sC cellsC, a ∉ footprint s cells := by
  obtain ⟨s, cells, hr⟩ := reachable_rep hL
  have hcne : cells ≠ [] := by
    rintro rfl
    rw [copyConstruct_nil hr] at hc
    cases hc
  obtain ⟨h1', C', cellsC, he, hrC, -, hold, hnew⟩ := copyConstruct_rep hr hcne
  rw [hc] at he
  cases he
  have hL1 : Rep h1 L s cells := hr.frame (fun a ha => hold a (hr.lt a ha))
  have hd : ∀ a ∈ footprint h.length cellsC, a ∉ footprint s cells := by
    intro a ha hmem
    have := hnew a ha
    have := hr.lt a hmem
    omega
  obtain ⟨cellsC2, hC2, hL2, hd2⟩ := Steps.isolated hrC hL1 hd hm
  exact ⟨cells.map Prod.snd, elements_rep hr, elements_rep hL2, hr.size_eq,
    s, cells, _, cellsC2, hL2, hC2, hd2⟩

/-! ## Insertion and removal at an index -/

theorem split_at {α : Type} (l : List α) (i : Nat) (hi : i < l.length) :
    l = l.take i ++ l[i] :: l.drop (i + 1) := by
  rw [← List.drop_eq_getElem_cons hi, List.take_append_drop]

/-- C5: for a reachable list with element sequence `a` and an index `i < a.length`,
`insert(it, v)` with `it` the iterator at the `i`-th element (`begin()` advanced `i`
times) yields the sequence `a` with `v` placed immediately before its `i`-th element, and
`size()` becomes `a.length + 1`. -/
theorem insert_at_index [Inhabited T] {h : Heap T} {l : MyList} (hr : Reachable h l)
    {a : List T} (ha : elements h l = .ok a) (i : Nat) (hi : i < a.length) (v : T) :
    ∃ it, iterAt h l i = .ok it ∧ ∃ h' l', insert h l it v = .ok (h', l') ∧
      elements h' l' = .ok (a.take i ++ v :: a.drop i) ∧ l'.size = a.length + 1 := by
  obtain ⟨s, cells, hrep⟩ := reachable_rep hr
  rw [elements_rep hrep] at ha
  cases ha
  simp only [List.length_map] at hi
  have hsplit := split_at cells i hi
  rw [hsplit] at hrep
  obtain ⟨h', l', he, -, hrep'⟩ := insert_rep hrep v
  have hit := iterAt_elem hrep
  rw [List.length_take, min_eq_left (le_of_lt hi)] at hit
  refine ⟨_, hit, h', l', he, ?_, ?_⟩
  · rw [elements_rep hrep']
    congr 1
    conv_rhs => rw [hsplit]
    simp [List.take_append_eq_append_take, List.drop_append_eq_append_drop,
      List.length_take, min_eq_left (le_of_lt hi)]
  · have hlen : (cells.take i ++ (h.length, v) :: cells[i] :: cells.drop (i + 1)).length =
        cells.length + 1 := by
      simp
      omega
    rw [hrep'.size_eq, List.length_map, List.length_map, hlen]
    simp

/-- C6: for a reachable list with element sequence `a` and an index `i < a.length`,
`erase(it)` with `it` the iterator at the `i`-th element yields the sequence `a` with
exactly its `i`-th element removed, and `size()` becomes `a.length - 1`. -/
theorem erase_at_index [Inhabited T] {h : Heap T} {l : MyList} (hr : Reachable h l)
    {a : List T} (ha : elements h l = .ok a) (i : Nat) (hi : i < a.length) :
    ∃ it, iterAt h l i = .ok it ∧ ∃ h' l', erase h l it = .ok (h', l') ∧
      elements h' l' = .ok (a.eraseIdx i) ∧ l'.size = (a.length : Int) - 1 := by
  obtain ⟨s, cells, hrep⟩ := reachable_rep hr
  rw [elements_rep hrep] at ha
  cases ha
  simp only [List.length_map] at hi
  have hsplit := split_at cells i hi
  rw [hsplit] at hrep
  obtain ⟨h', l', he, -, -, hrep', -⟩ := erase_rep hrep
  have hit := iterAt_elem hrep
  rw [List.length_take, min_eq_left (le_of_lt hi)] at hit
  refine ⟨_, hit, h', l', he, ?_, ?_⟩
  · rw [elements_rep hrep']
    congr 1
    rw [List.eraseIdx_eq_take_drop_succ]
    simp [List.map_take, List.map_drop]
  · have hlen : (cells.take i ++ cells.drop (i + 1)).length + 1 = cells.length := by
      simp
      omega
    rw [hrep'.size_eq, List.length_map, List.length_map, ← hlen]
    simp

/-! ## Push followed by pop, and the special cases of insert and erase -/

theorem Rep.unique {h h' : Heap T} {l l' : MyList} {s : Nat} {cells : List (Nat × T)}
    (hr : Rep h l s cells) (hr' : Rep h' l' s cells) : l' = l := by
  obtain ⟨a, b, c, d⟩ := l
  obtain ⟨a', b', c', d'⟩ := l'
  have h1 := hr.sentinel
  have h2 := hr.start
  have h3 := hr.last
  have h4 := hr.size
  have h1' := hr'.sentinel
  have h2' := hr'.start
  have h3' := hr'.last
  have h4' := hr'.size
  simp only at h1 h2 h3 h4 h1' h2' h3' h4'
  simp [h1, h2, h3, h4, h1', h2', h3', h4']

theorem sentinelPrev_rep {h : Heap T} {l : MyList} {s : Nat} {n : Node T}
    (hs : l.sentinel = some s) (hc : h.cell s = some n) : sentinelPrev h l = .ok n.prev := by
  simp [sentinelPrev, hs, Heap.read, hc, bind, Except.bind, pure, Except.pure]

/-- C7: for a reachable list (empty or not) and a value `x`, `push_back(x)` followed by
`pop_back()` both complete and restore the prior list: the same `size()`, the same first
and last element nodes (the data members are those of the list before the two calls) and
the same front-to-back element sequence. -/
theorem push_back_pop_back [Inhabited T] {h : Heap T} {l : MyList} (hr : Reachable h l)
    (x : T) :
    ∃ h1 l1 h2 l2 a, push_back h l x = .ok (h1, l1) ∧ pop_back h1 l1 = .ok (h2, l2) ∧
      l2.size = l.size ∧ l2.startNode = l.startNode ∧ l2.endNode = l.endNode ∧ l2 = l ∧
      elements h l = .ok a ∧ elements h2 l2 = .ok a := by
  obtain ⟨s, cells, hrep⟩ := reachable_rep hr
  obtain ⟨h1, l1, he1, -, hr1, -⟩ := push_back_rep hrep x
  obtain ⟨h2, l2, he2, -, hr2, -, -⟩ := pop_back_rep hr1
  rw [List.dropLast_concat] at hr2
  have heq := hrep.unique hr2
  exact ⟨h1, l1, h2, l2, cells.map Prod.snd, he1, he2, by rw [heq], by rw [heq], by rw [heq],
    heq, elements_rep hrep, elements_rep hr2⟩

/-- C8: for a reachable list (empty or not) and a value `x`, `push_front(x)` followed by
`pop_front()` both complete and restore the prior list: the same `size()`, the same first
and last element nodes, the same backward link of the sentinel and the same
front-to-back element sequence. -/
theorem push_front_pop_front [Inhabited T] {h : Heap T} {l : MyList} (hr : Reachable h l)
    (x : T) :
    ∃ h1 l1 h2 l2 a p, push_front h l x = .ok (h1, l1) ∧ pop_front h1 l1 = .ok (h2, l2) ∧
      l2.size = l.size ∧ l2.startNode = l.startNode ∧ l2.endNode = l.endNode ∧ l2 = l ∧
      sentinelPrev h l = .ok p ∧ sentinelPrev h2 l2 = .ok p ∧
      elements h l = .ok a ∧ elements h2 l2 = .ok a := by
  obtain ⟨s, cells, hrep⟩ := reachable_rep hr
  obtain ⟨h1, l1, he1, hf1, hr1⟩ := push_front_rep hrep x
  obtain ⟨h2, l2, he2, hf2, -, hr2, -⟩ := pop_front_rep hr1
  simp only [List.tail_cons] at hr2
  have heq := hrep.unique hr2
  obtain ⟨d, sp, hs, hsp⟩ := hrep.sent
  have hslt := lt_of_cell hs
  have hfresh := hrep.fresh
  have hs1 : h1.cell s = h.cell s := by
    refine hf1.2 s hslt (fun hc => hfresh ?_)
    simp only [List.mem_map] at hc ⊢
    obtain ⟨y, hy, rfl⟩ := hc
    exact ⟨y, List.mem_of_mem_take hy, rfl⟩
  have hprev2 : sentinelPrev h2 l2 = .ok sp := by
    cases cells with
    | nil =>
      obtain ⟨d2, sp2, hs2, hsp2⟩ := hr2.sent
      simp only [lastPtr_nil, or_self] at hsp hsp2
      rw [sentinelPrev_rep hr2.sentinel hs2, hsp, hsp2]
    | cons c cs =>
      have hf := hf2 (by simp)
      have hs2 : h2.cell s = h1.cell s := by
        refine hf.2 s (lt_of_lt_of_le hslt hf1.1) ?_
        simp only [List.take_succ_cons, List.take_zero, List.map_cons, List.map_nil,
          List.mem_cons, List.not_mem_nil, or_false, not_or]
        simp only [List.map_cons, List.mem_cons, not_or] at hfresh
        exact ⟨by omega, hfresh.1⟩
      rw [sentinelPrev_rep hr2.sentinel (hs2.trans (hs1.trans hs))]
  exact ⟨h1, l1, h2, l2, cells.map Prod.snd, sp, he1, he2, by rw [heq], by rw [heq],
    by rw [heq], heq, sentinelPrev_rep hrep.sentinel hs, hprev2, elements_rep hrep,
    elements_rep hr2⟩

/-- C9: for a reachable list (the empty list included) and a value `x`, `insert(begin(), x)`
completes with the very list state `push_front(x)` produces, and `insert(end(), x)` with
the very list state `push_back(x)` produces. -/
theorem insert_at_ends [Inhabited T] {h : Heap T} {l : MyList} (hr : Reachable h l) (x : T) :
    (∃ r, push_front h l x = .ok r ∧ insert h l l.begin_ x = .ok r) ∧
      ∃ r, push_back h l x = .ok r ∧ insert h l l.end_ x = .ok r := by
  obtain ⟨s, cells, hrep⟩ := reachable_rep hr
  obtain ⟨h1, l1, he1, -⟩ := push_front_rep hrep x
  obtain ⟨h2, l2, he2, -⟩ := push_back_rep hrep x
  exact ⟨⟨_, he1, by rw [insert_begin_eq, he1]⟩, ⟨_, he2, by rw [insert_end_eq hrep, he2]⟩⟩

theorem erase_begin_eq (h : Heap T) (l : MyList) : erase h l l.begin_ = pop_front h l := by
  simp [erase, begin_, Iterator.getCurrent]

theorem pop_front_eq_pop_back (h : Heap T) (l : MyList) (he : l.startNode = l.endNode) :
    pop_front h l = pop_back h l := by
  simp [pop_front, pop_back, he]

theorem erase_last_eq (h : Heap T) (l : MyList) (it : Iterator)
    (hit : it.getCurrent = l.endNode) : erase h l it = pop_back h l := by
  by_cases hs : it.getCurrent = l.startNode
  · simp [erase, hs, pop_front_eq_pop_back h l (hs.symm.trans hit)]
  · rw [erase, if_neg (by simpa using hs), if_pos (by simpa using hit)]

/-- C10: for a reachable list with `n ≥ 1` elements, `erase(begin())` completes with the
very list state `pop_front()` produces, and `erase` of the iterator at the last element
(`begin()` advanced `n - 1` times) with the very list state `pop_back()` produces; this
includes the one-element list. -/
theorem erase_at_ends [Inhabited T] {h : Heap T} {l : MyList} (hr : Reachable h l)
    {a : List T} (ha : elements h l = .ok a) (hne : a ≠ []) :
    (∃ r, pop_front h l = .ok r ∧ erase h l l.begin_ = .ok r) ∧
      ∃ it r, iterAt h l (a.length - 1) = .ok it ∧ pop_back h l = .ok r ∧
        erase h l it = .ok r := by
  obtain ⟨s, cells, hrep⟩ := reachable_rep hr
  rw [elements_rep hrep] at ha
  cases ha
  obtain ⟨h1, l1, he1, -⟩ := pop_front_rep hrep
  obtain ⟨h2, l2, he2, -⟩ := pop_back_rep hrep
  refine ⟨⟨_, he1, by rw [erase_begin_eq, he1]⟩, ?_⟩
  rcases eq_nil_or_snoc cells with rfl | ⟨ys, e, rfl⟩
  · exact absurd rfl hne
  · have hit := iterAt_elem (show Rep h l s (ys ++ e :: []) from hrep)
    have hlast := hrep.last
    simp only [lastPtr_append, lastPtr_cons, lastPtr_nil] at hlast
    refine ⟨⟨some e.1⟩, _, ?_, he2, ?_⟩
    · simpa using hit
    · rw [erase_last_eq h l _ (by simp [Iterator.getCurrent, hlast]), he2]

/-! ## The theorems at concrete lists -/

theorem reachable_list123 : Reachable heap123 list123 :=
  Reachable.of_constructFrom
    (show constructFrom ([] : Heap Int) [1, 2, 3] = .ok (heap123, list123) from rfl)

theorem reachable_listFront : Reachable heapFront listFront :=
  ⟨[], Steps.tail Steps.refl (Step.push_front 1 rfl)⟩

theorem steps_listCopy : Steps heapCopy listCopy heapMutated listMutated :=
  Steps.head (Step.push_front 7 rfl)
    (Steps.head (Step.erase ⟨some 5⟩ ⟨1, by decide, rfl⟩ rfl)
      (Steps.head (Step.assign ⟨some 6⟩ 8 ⟨1, by decide, rfl⟩ rfl)
        (Steps.head (Step.pop_back rfl) Steps.refl)))

theorem copy_isolated_witness :
    Reachable heap123 list123 ∧ copyConstruct heap123 list123 = .ok (heapCopy, listCopy) ∧
      Steps heapCopy listCopy heapMutated listMutated ∧
      ∃ vs, elements heap123 list123 = .ok vs ∧ elements heapMutated list123 = .ok vs ∧
        list123.size = vs.length ∧
        ∃ s cells sC cellsC, Rep heapMutated list123 s cells ∧
          Rep heapMutated listMutated sC cellsC ∧
          ∀ a ∈ footprint sC cellsC, a ∉ footprint s cells :=
  ⟨reachable_list123, rfl, steps_listCopy,
    copy_isolated reachable_list123 rfl steps_listCopy⟩

theorem insert_at_index_witness :
    Reachable heap123 list123 ∧ elements heap123 list123 = .ok [1, 2, 3] ∧
      1 < ([1, 2, 3] : List Int).length ∧
      ∃ it, iterAt heap123 list123 1 = .ok it ∧
        ∃ h' l', insert heap123 list123 it 9 = .ok (h', l') ∧
          elements h' l' = .ok (([1, 2, 3] : List Int).take 1 ++ 9 :: [1, 2, 3].drop 1) ∧
          l'.size = ([1, 2, 3] : List Int).length + 1 :=
  ⟨reachable_list123, rfl, by decide,
    insert_at_index reachable_list123 (a := [1, 2, 3]) rfl 1 (by decide) 9⟩

theorem erase_at_index_witness :
    Reachable heap123 list123 ∧ elements heap123 list123 = .ok [1, 2, 3] ∧
      1 < ([1, 2, 3] : List Int).length ∧
      ∃ it, iterAt heap123 list123 1 = .ok it ∧
        ∃ h' l', erase heap123 list123 it = .ok (h', l') ∧
          elements h' l' = .ok (([1, 2, 3] : List Int).eraseIdx 1) ∧
          l'.size = (([1, 2, 3] : List Int).length : Int) - 1 :=
  ⟨reachable_list123, rfl, by decide,
    erase_at_index reachable_list123 (a := [1, 2, 3]) rfl 1 (by decide)⟩

theorem push_back_pop_back_witness :
    Reachable heapFront listFront ∧
      ∃ h1 l1 h2 l2 a, push_back heapFront listFront 5 = .ok (h1, l1) ∧
        pop_back h1 l1 = .ok (h2, l2) ∧ l2.size = listFront.size ∧
        l2.startNode = listFront.startNode ∧ l2.endNode = listFront.endNode ∧
        l2 = listFront ∧ elements heapFront listFront = .ok a ∧ elements h2 l2 = .ok a :=
  ⟨reachable_listFront, push_back_pop_back reachable_listFront 5⟩

theorem push_front_pop_front_witness :
    Reachable heapFront listFront ∧
      ∃ h1 l1 h2 l2 a p, push_front heapFront listFront 5 = .ok (h1, l1) ∧
        pop_front h1 l1 = .ok (h2, l2) ∧ l2.size = listFront.size ∧
        l2.startNode = listFront.startNode ∧ l2.endNode = listFront.endNode ∧
        l2 = listFront ∧ sentinelPrev heapFront listFront = .ok p ∧
        sentinelPrev h2 l2 = .ok p ∧
        elements heapFront listFront = .ok a ∧ elements h2 l2 = .ok a :=
  ⟨reachable_listFront, push_front_pop_front reachable_listFront 5⟩

theorem insert_at_ends_witness :
    Reachable heap123 list123 ∧
      (∃ r, push_front heap123 list123 9 = .ok r ∧
        insert heap123 list123 list123.begin_ 9 = .ok r) ∧
      ∃ r, push_back heap123 list123 9 = .ok r ∧
        insert heap123 list123 list123.end_ 9 = .ok r :=
  ⟨reachable_list123, insert_at_ends reachable_list123 9⟩

theorem erase_at_ends_witness :
    Reachable heapFront listFront ∧ elements heapFront listFront = .ok [1] ∧
      ([1] : List Int) ≠ [] ∧
      (∃ r, pop_front heapFront listFront = .ok r ∧
        erase heapFront listFront listFront.begin_ = .ok r) ∧
      ∃ it r, iterAt heapFront listFront (([1] : List Int).length - 1) = .ok it ∧
        pop_back heapFront listFront = .ok r ∧ erase heapFront listFront it = .ok r :=
  ⟨reachable_listFront, rfl, by decide,
    erase_at_ends reachable_listFront (a := [1]) rfl (by decide)⟩

/-! ## Accessors and iterator errors -/

theorem lastPtr_eq_none {cs : List (Nat × T)} : lastPtr cs none = none ↔ cs = [] := by
  rcases eq_nil_or_snoc cs with rfl | ⟨xs, c, rfl⟩
  · simp
  · simp

theorem headPtr_eq_head (cs : List (Nat × T)) : headPtr cs none = (cs.map Prod.fst).head? := by
  cases cs <;> simp

theorem lastPtr_eq_getLast (cs : List (Nat × T)) :
    lastPtr cs none = (cs.map Prod.fst).getLast? := by
  rcases eq_nil_or_snoc cs with rfl | ⟨xs, c, rfl⟩
  · simp
  · simp

theorem front_rep {h : Heap T} {l : MyList} {s : Nat} {c : Nat × T} {cs : List (Nat × T)}
    (hr : Rep h l s (c :: cs)) : front h l = .ok c.2 := by
  have hst := hr.start
  have hc := (seg_cons _ _ _ _ _).1 hr.seg
  simp only [headPtr_cons] at hst
  simp [front, empty, hst, Heap.read, hc.1, bind, Except.bind, pure, Except.pure]

theorem back_rep {h : Heap T} {l : MyList} {s : Nat} {c : Nat × T} {xs : List (Nat × T)}
    (hr : Rep h l s (xs ++ [c])) : back h l = .ok c.2 := by
  have hst := hr.start
  have hla := hr.last
  have hc := seg_cell hr.seg
  have hne : l.startNode ≠ none := by
    rw [hst]; intro hc; simpa using headPtr_eq_none.1 hc
  simp only [lastPtr_append, lastPtr_cons, lastPtr_nil] at hla
  simp [back, empty, hne, hla, Heap.read, hc, bind, Except.bind, pure, Except.pure]

/-- C11: for a reachable list with element sequence `a`, `front()` raises "List is empty"
exactly when `a` is empty, and so does `back()`; when `a` has elements `front()` returns
its first value and `back()` its last value. -/
theorem front_back [Inhabited T] {h : Heap T} {l : MyList} (hr : Reachable h l)
    {a : List T} (ha : elements h l = .ok a) :
    (front h l = .error .listIsEmpty ↔ a = []) ∧ (back h l = .error .listIsEmpty ↔ a = []) ∧
      (∀ x, a.head? = some x → front h l = .ok x) ∧
      (∀ x, a.getLast? = some x → back h l = .ok x) := by
  obtain ⟨s, cells, hrep⟩ := reachable_rep hr
  rw [elements_rep hrep] at ha
  cases ha
  rcases eq_nil_or_snoc cells with rfl | ⟨xs, e, rfl⟩
  · have hst : l.startNode = none := hrep.start
    simp [front, back, empty, hst]
  · have hb := back_rep hrep
    have hf : front h l = .ok ((xs ++ [e]).map Prod.snd).head?.get! ∧
        ((xs ++ [e]).map Prod.snd).head?.isSome := by
      cases xs with
      | nil => exact ⟨by simpa using front_rep hrep, by simp⟩
      | cons c cs => exact ⟨by simpa using front_rep hrep, by simp⟩
    refine ⟨?_, ?_, ?_, ?_⟩
    · rw [hf.1]; simp
    · rw [hb]; simp
    · intro x hx
      rw [hf.1, hx]
      rfl
    · intro x hx
      rw [hb]
      simp at hx
      rw [hx]

theorem reachable_construct [Inhabited T] (h0 : Heap T) :
    Reachable (construct h0).1 (construct h0).2 :=
  ⟨h0, Steps.refl⟩

/-- The two descriptions of `operator++` agree: the call returns the new iterator when
`increment` reports no exception, and raises the reported exception otherwise. -/
theorem inc_eq_increment (h : Heap T) (it : Iterator) :
    it.inc h =
      match it.increment h with
      | (it', none) => .ok it'
      | (_, some e) => .error e := by
  obtain ⟨p⟩ := it
  cases p with
  | none => simp [Iterator.inc, Iterator.increment]
  | some a =>
    cases hc : h.cell a with
    | none => simp [Iterator.inc, Iterator.increment, Heap.read, hc, bind, Except.bind]
    | some n =>
      by_cases hn : n.next = none <;>
        simp [Iterator.inc, Iterator.increment, Heap.read, hc, hn, bind, Except.bind, pure,
          Except.pure]

theorem inc_end_rep {h : Heap T} {l : MyList} {s : Nat} {cells : List (Nat × T)}
    (hr : Rep h l s cells) :
    l.end_.inc h = .error .incrementingNull ∧
      l.end_.increment h = (l.end_, some .incrementingNull) := by
  obtain ⟨d, sp, hs, -⟩ := hr.sent
  simp [Iterator.inc, Iterator.increment, end_, hr.sentinel, Heap.read, hs, bind, Except.bind]

/-- C12: for a reachable list, advancing the iterator returned by `end()` raises
"Incrementing null" and the iterator object still references the sentinel after the call;
and when the list is empty, retreating the iterator returned by `begin()` raises
"Decrementing null". -/
theorem advance_end_retreat_begin [Inhabited T] {h : Heap T} {l : MyList}
    (hr : Reachable h l) :
    l.end_.inc h = .error .incrementingNull ∧
      l.end_.increment h = (l.end_, some .incrementingNull) ∧
      (l.size = 0 → l.begin_.dec h = .error .decrementingNull) := by
  obtain ⟨s, cells, hrep⟩ := reachable_rep hr
  refine ⟨(inc_end_rep hrep).1, (inc_end_rep hrep).2, fun h0 => ?_⟩
  have hnil : cells = [] := by
    have := hrep.size_eq
    rw [h0] at this
    simpa using this.symm
  subst hnil
  have hst : l.startNode = none := hrep.start
  simp [Iterator.dec, begin_, hst]

theorem advance_end_retreat_begin_witness :
    Reachable (construct ([] : Heap Int)).1 (construct ([] : Heap Int)).2 ∧
      (construct ([] : Heap Int)).2.end_.inc (construct ([] : Heap Int)).1 =
        .error .incrementingNull ∧
      (construct ([] : Heap Int)).2.end_.increment (construct ([] : Heap Int)).1 =
        ((construct ([] : Heap Int)).2.end_, some .incrementingNull) ∧
      ((construct ([] : Heap Int)).2.size = 0 →
        (construct ([] : Heap Int)).2.begin_.dec (construct ([] : Heap Int)).1 =
          .error .decrementingNull) :=
  ⟨reachable_construct [], advance_end_retreat_begin (reachable_construct [])⟩

/-- For a reachable list with elements, `begin()` references the first element node:
dereferencing it returns the first value. -/
theorem begin_of_elements [Inhabited T] {h : Heap T} {l : MyList} (hr : Reachable h l)
    {x : T} {a : List T} (ha : elements h l = .ok (x :: a)) :
    iterAt h l 0 = .ok l.begin_ ∧ l.begin_.deref h = .ok x := by
  obtain ⟨s, cells, hrep⟩ := reachable_rep hr
  rw [elements_rep hrep] at ha
  cases cells with
  | nil => simp at ha
  | cons c cs =>
    have hst := hrep.start
    have hc := (seg_cons _ _ _ _ _).1 hrep.seg
    simp only [headPtr_cons] at hst
    simp only [List.map_cons, Except.ok.injEq, List.cons.injEq] at ha
    refine ⟨rfl, ?_⟩
    simp [Iterator.deref, begin_, hst, Heap.read, hc.1, bind, Except.bind, pure, Except.pure,
      ha.1]

/-- C13, at the input where the code departs from it: on a freshly constructed list, and
on a list emptied again by `pop_back()`, `begin()` is the null iterator and compares
unequal to `end()`, which references the sentinel. -/
theorem begin_of_empty [Inhabited T] (h0 : Heap T) (x : T) :
    ((construct h0).2.begin_ = ⟨none⟩ ∧ (construct h0).2.end_ = ⟨some h0.length⟩ ∧
        (construct h0).2.begin_.ne (construct h0).2.end_ = true) ∧
      ∃ h1 l1 h2 l2, push_back (construct h0).1 (construct h0).2 x = .ok (h1, l1) ∧
        pop_back h1 l1 = .ok (h2, l2) ∧ l2.size = 0 ∧ l2.begin_ = ⟨none⟩ ∧
        l2.end_ = ⟨some h0.length⟩ ∧ l2.begin_.ne l2.end_ = true := by
  refine ⟨⟨rfl, rfl, by simp [Iterator.ne, begin_, end_, construct, Heap.new]⟩, ?_⟩
  obtain ⟨h1, l1, he1, -, hr1, -⟩ := push_back_rep (construct_rep h0) x
  obtain ⟨h2, l2, he2, -, hr2, -, -⟩ := pop_back_rep hr1
  rw [List.nil_append, List.dropLast_single] at hr2
  have hst : l2.startNode = none := hr2.start
  have hse := hr2.sentinel
  refine ⟨h1, l1, h2, l2, he1, he2, by rw [hr2.size_eq]; rfl, ?_, ?_, ?_⟩
  · simp [begin_, hst]
  · simp [end_, hse]
  · simp [Iterator.ne, begin_, end_, hst, hse]

/-- For a reachable list the backward link of the sentinel is empty or is the last
reference, and it is the last reference right after `push_back`. -/
theorem sentinelPrev_reachable [Inhabited T] {h : Heap T} {l : MyList} (hr : Reachable h l)
    (x : T) :
    (sentinelPrev h l = .ok none ∨ sentinelPrev h l = .ok l.endNode) ∧
      ∃ h1 l1, push_back h l x = .ok (h1, l1) ∧ sentinelPrev h1 l1 = .ok l1.endNode := by
  obtain ⟨s, cells, hrep⟩ := reachable_rep hr
  obtain ⟨d, sp, hs, hsp⟩ := hrep.sent
  refine ⟨?_, ?_⟩
  · rw [sentinelPrev_rep hrep.sentinel hs, hrep.last]
    rcases hsp with rfl | rfl
    · exact Or.inl rfl
    · exact Or.inr rfl
  · obtain ⟨h1, l1, he1, -, hr1, d1, hs1⟩ := push_back_rep hrep x
    refine ⟨h1, l1, he1, ?_⟩
    rw [sentinelPrev_rep hr1.sentinel hs1, hr1.last]
    simp

/-- C14, at the input where the code departs from it: after `push_front(x)` on a freshly
constructed list the list holds the one element `x`, which `back()` returns, but the
backward link of the sentinel is still empty, so retreating `end()` raises
"Decrementing null" instead of reaching that element. -/
theorem sentinelPrev_after_push_front [Inhabited T] (h0 : Heap T) (x : T) :
    ∃ h l, push_front (construct h0).1 (construct h0).2 x = .ok (h, l) ∧
      elements h l = .ok [x] ∧ back h l = .ok x ∧ l.endNode = some (h0.length + 1) ∧
      sentinelPrev h l = .ok none ∧ l.end_.dec h = .error .decrementingNull := by
  have hc0 := construct_rep h0
  obtain ⟨h, l, he, hf, hr⟩ := push_front_rep hc0 x
  obtain ⟨d, sp, hs, hsp⟩ := hc0.sent
  simp only [lastPtr_nil, or_self] at hsp
  subst hsp
  have hlen : (construct h0).1.length = h0.length + 1 := by simp [construct, Heap.new]
  have hs' : h.cell h0.length = some { data := d, prev := none, next := none } := by
    rw [hf.2 h0.length (by omega) (by simp), hs]
  rw [hlen] at hr
  refine ⟨h, l, he, by simpa using elements_rep hr,
    by simpa using back_rep (show Rep h l h0.length ([] ++ [(h0.length + 1, x)]) from hr),
    by simpa using hr.last, sentinelPrev_rep hr.sentinel hs', ?_⟩
  simp [Iterator.dec, end_, hr.sentinel, Heap.read, hs', bind, Except.bind]

/-! ## The invariants of the data members and of the links -/

theorem chainLoop_seg {h : Heap T} {s : Nat} {cs : List (Nat × T)} {p : Ptr}
    (hs : Seg h p cs (some s)) (hfr : s ∉ cs.map Prod.fst) (fuel : Nat)
    (hfuel : cs.length < fuel) :
    chainLoop h (some s) fuel (headPtr cs (some s)) = .ok (cs.map Prod.fst) := by
  induction cs generalizing p fuel with
  | nil =>
    obtain ⟨fuel, rfl⟩ : ∃ k, fuel = k + 1 := ⟨fuel - 1, by simp at hfuel; omega⟩
    simp [chainLoop, pure, Except.pure]
  | cons c cs ih =>
    obtain ⟨fuel, rfl⟩ : ∃ k, fuel = k + 1 := ⟨fuel - 1, by simp at hfuel; omega⟩
    simp only [List.map_cons, List.mem_cons, not_or] at hfr
    rw [seg_cons] at hs
    have hne : c.1 ≠ s := fun hc => hfr.1 hc.symm
    have hrec := ih hs.2 hfr.2 fuel (by simp at hfuel; omega)
    simp [chainLoop, hne, Heap.read, hs.1, bind, Except.bind, pure, Except.pure, hrec]

theorem nodes_rep {h : Heap T} {l : MyList} {s : Nat} {cells : List (Nat × T)}
    (hr : Rep h l s cells) : nodes h l = .ok (cells.map Prod.fst) := by
  cases cells with
  | nil => simp [nodes, empty, hr.start, pure, Except.pure]
  | cons c cs =>
    have hlen := hr.length_lt
    have hst := hr.start
    simp only [headPtr_cons] at hst
    have := chainLoop_seg hr.seg hr.fresh (h.length + 1) (by omega)
    simp only [headPtr_cons] at this
    simp [nodes, empty, hst, hr.sentinel, this]

/-- C15: for a reachable list, the first reference is empty iff the last reference is
empty iff `size()` is 0, so `empty()` holds exactly when `size()` is 0; and the chain of
`next` links from the first node reaches the sentinel after exactly `size()` element
nodes, the first of which is the first reference and the last of which is the last
reference. -/
theorem chain_invariant [Inhabited T] {h : Heap T} {l : MyList} (hr : Reachable h l) :
    (l.startNode = none ↔ l.endNode = none) ∧ (l.endNode = none ↔ l.size = 0) ∧
      (l.empty = true ↔ l.size = 0) ∧
      ∃ ns, nodes h l = .ok ns ∧ (ns.length : Int) = l.size ∧ ns.head? = l.startNode ∧
        ns.getLast? = l.endNode := by
  obtain ⟨s, cells, hrep⟩ := reachable_rep hr
  have hsz : l.size = 0 ↔ cells = [] := by
    rw [hrep.size_eq]
    simp
  refine ⟨?_, ?_, ?_, cells.map Prod.fst, nodes_rep hrep, ?_, ?_, ?_⟩
  · rw [hrep.start, hrep.last, headPtr_eq_none, lastPtr_eq_none]
  · rw [hrep.last, lastPtr_eq_none, hsz]
  · rw [empty_rep hrep, hsz]
  · rw [hrep.size_eq]
    simp
  · rw [hrep.start, headPtr_eq_head]
  · rw [hrep.last, lastPtr_eq_getLast]

theorem chain_invariant_witness :
    Reachable heap123 list123 ∧
      (list123.startNode = none ↔ list123.endNode = none) ∧
      (list123.endNode = none ↔ list123.size = 0) ∧
      (list123.empty = true ↔ list123.size = 0) ∧
      ∃ ns, nodes heap123 list123 = .ok ns ∧ (ns.length : Int) = list123.size ∧
        ns.head? = list123.startNode ∧ ns.getLast? = list123.endNode :=
  ⟨reachable_list123, chain_invariant reachable_list123⟩

/-- C17: on a reachable list without elements `pop_front()` and `pop_back()` return
without error and leave the heap (the sentinel included) and the data members (the first
and last references and `size()`, which is 0) as they were; on a reachable list with
elements each of them decreases `size()` by exactly 1, and when the list has one element
each of them leaves the first and last references empty and the backward link of the
sentinel empty. -/
theorem pop_effects [Inhabited T] {h : Heap T} {l : MyList} (hr : Reachable h l) :
    (l.size = 0 → pop_front h l = .ok (h, l) ∧ pop_back h l = .ok (h, l)) ∧
      (l.size ≠ 0 → ∃ h1 l1 h2 l2, pop_front h l = .ok (h1, l1) ∧
        pop_back h l = .ok (h2, l2) ∧ l1.size = l.size - 1 ∧ l2.size = l.size - 1 ∧
        (l.size = 1 → l1.startNode = none ∧ l1.endNode = none ∧
          sentinelPrev h1 l1 = .ok none ∧ l2.startNode = none ∧ l2.endNode = none ∧
          sentinelPrev h2 l2 = .ok none)) := by
  obtain ⟨s, cells, hrep⟩ := reachable_rep hr
  have hsize := hrep.size_eq
  simp only [List.length_map] at hsize
  obtain ⟨h1, l1, he1, -, -, hr1, -⟩ := pop_front_rep hrep
  obtain ⟨h2, l2, he2, -, hr2, -, -⟩ := pop_back_rep hrep
  refine ⟨fun h0 => ?_, fun hne => ⟨h1, l1, h2, l2, he1, he2, ?_, ?_, fun hone => ?_⟩⟩
  · have hst : l.startNode = none := by
      have : cells = [] := by
        rw [hsize] at h0
        simpa using h0
      subst this
      exact hrep.start
    simp [pop_front, pop_back, empty, hst, pure, Except.pure]
  · have hpos : cells ≠ [] := by
      rintro rfl
      exact hne (by rw [hsize]; rfl)
    rw [hr1.size_eq, hsize]
    cases cells with
    | nil => exact absurd rfl hpos
    | cons c cs => simp
  · have hpos : cells ≠ [] := by
      rintro rfl
      exact hne (by rw [hsize]; rfl)
    rw [hr2.size_eq, hsize]
    rcases eq_nil_or_snoc cells with rfl | ⟨xs, e, rfl⟩
    · exact absurd rfl hpos
    · rw [List.dropLast_concat]
      simp
  · have hlen : cells.length = 1 := by
      rw [hsize] at hone
      exact_mod_cast hone
    obtain ⟨c, rfl⟩ := List.length_eq_one.1 hlen
    simp only [List.tail_cons] at hr1
    simp only [List.dropLast_single] at hr2
    obtain ⟨d1, sp1, hs1, hsp1⟩ := hr1.sent
    obtain ⟨d2, sp2, hs2, hsp2⟩ := hr2.sent
    simp only [lastPtr_nil, or_self] at hsp1 hsp2
    refine ⟨hr1.start, hr1.last, ?_, hr2.start, hr2.last, ?_⟩
    · rw [sentinelPrev_rep hr1.sentinel hs1, hsp1]
    · rw [sentinelPrev_rep hr2.sentinel hs2, hsp2]

theorem pop_effects_witness :
    Reachable heapFront listFront ∧
      (listFront.size = 0 → pop_front heapFront listFront = .ok (heapFront, listFront) ∧
        pop_back heapFront listFront = .ok (heapFront, listFront)) ∧
      (listFront.size ≠ 0 → ∃ h1 l1 h2 l2, pop_front heapFront listFront = .ok (h1, l1) ∧
        pop_back heapFront listFront = .ok (h2, l2) ∧ l1.size = listFront.size - 1 ∧
        l2.size = listFront.size - 1 ∧
        (listFront.size = 1 → l1.startNode = none ∧ l1.endNode = none ∧
          sentinelPrev h1 l1 = .ok none ∧ l2.startNode = none ∧ l2.endNode = none ∧
          sentinelPrev h2 l2 = .ok none)) :=
  ⟨reachable_listFront, pop_effects reachable_listFront⟩

/-! ## Dereference and retreat at an element -/

theorem deref_null_iff (h : Heap T) (it : Iterator) :
    it.deref h = .error .dereferencingNull ↔ it.current_ = none := by
  obtain ⟨p⟩ := it
  cases p with
  | none => simp [Iterator.deref]
  | some a =>
    cases hc : h.cell a <;>
      simp [Iterator.deref, Heap.read, hc, bind, Except.bind, pure, Except.pure]

theorem deref_elem {h : Heap T} {l : MyList} {s : Nat} {xs ys : List (Nat × T)}
    {c : Nat × T} (hr : Rep h l s (xs ++ c :: ys)) :
    Iterator.deref h ⟨some c.1⟩ = .ok c.2 := by
  have hc := seg_cell hr.seg
  simp [Iterator.deref, Heap.read, hc, bind, Except.bind, pure, Except.pure]

/-- C18: dereferencing an iterator raises "Dereferencing null" if and only if the iterator
references no node; and for a reachable list with element sequence `a`, dereferencing the
iterator at the `i`-th element (`begin()` advanced `i` times) returns `a[i]`. -/
theorem deref_at_index [Inhabited T] {h : Heap T} {l : MyList} (hr : Reachable h l)
    {a : List T} (ha : elements h l = .ok a) :
    (∀ it : Iterator, it.deref h = .error .dereferencingNull ↔ it.current_ = none) ∧
      ∀ (i : Nat) (hi : i < a.length),
        ∃ it, iterAt h l i = .ok it ∧ it.deref h = .ok a[i] := by
  obtain ⟨s, cells, hrep⟩ := reachable_rep hr
  rw [elements_rep hrep] at ha
  cases ha
  refine ⟨deref_null_iff h, fun i hi' => ?_⟩
  have hi : i < cells.length := by simpa using hi'
  have hsplit := split_at cells i hi
  have hrep' := hrep
  rw [hsplit] at hrep'
  have hit := iterAt_elem hrep'
  rw [List.length_take, min_eq_left (le_of_lt hi)] at hit
  refine ⟨_, hit, ?_⟩
  rw [deref_elem hrep']
  simp

theorem deref_at_index_witness :
    Reachable heap123 list123 ∧ elements heap123 list123 = .ok [1, 2, 3] ∧
      (∀ it : Iterator, it.deref heap123 = .error .dereferencingNull ↔ it.current_ = none) ∧
      ∀ (i : Nat) (hi : i < ([1, 2, 3] : List Int).length),
        ∃ it, iterAt heap123 list123 i = .ok it ∧
          it.deref heap123 = .ok ([1, 2, 3] : List Int)[i] :=
  ⟨reachable_list123, rfl, deref_at_index reachable_list123 rfl⟩

theorem dec_elem {h : Heap T} {l : MyList} {s : Nat} {xs ys : List (Nat × T)}
    {p c : Nat × T} (hr : Rep h l s (xs ++ p :: c :: ys)) :
    Iterator.dec h ⟨some c.1⟩ = .ok ⟨some p.1⟩ ∧ Iterator.inc h ⟨some p.1⟩ = .ok ⟨some c.1⟩ := by
  have hp := seg_cell hr.seg
  have hc := seg_cell (show Seg h none ((xs ++ [p]) ++ c :: ys) (some s) by
    simpa using hr.seg)
  simp only [lastPtr_append, lastPtr_cons, lastPtr_nil, headPtr_cons] at hp hc
  constructor
  · simp [Iterator.dec, Heap.read, hc, bind, Except.bind, pure, Except.pure]
  · simp [Iterator.inc, Heap.read, hp, bind, Except.bind, pure, Except.pure]

theorem dec_first {h : Heap T} {l : MyList} {s : Nat} {ys : List (Nat × T)}
    {c : Nat × T} (hr : Rep h l s (c :: ys)) :
    Iterator.dec h ⟨some c.1⟩ = .error .decrementingNull := by
  have hc := ((seg_cons _ _ _ _ _).1 hr.seg).1
  simp [Iterator.dec, Heap.read, hc, bind, Except.bind]

/-- C19: for a reachable list with element sequence `a`, retreating the iterator at the
`i`-th element, `1 ≤ i < a.length`, yields the iterator at the `(i-1)`-th element, and
advancing that one yields the iterator at the `i`-th element again; and when `a` has
elements, retreating the iterator at the first element raises "Decrementing null". -/
theorem retreat_at_index [Inhabited T] {h : Heap T} {l : MyList} (hr : Reachable h l)
    {a : List T} (ha : elements h l = .ok a) :
    (∀ i : Nat, 1 ≤ i → i < a.length →
        ∃ it it', iterAt h l i = .ok it ∧ iterAt h l (i - 1) = .ok it' ∧
          it.dec h = .ok it' ∧ it'.inc h = .ok it) ∧
      (a ≠ [] → ∃ it, iterAt h l 0 = .ok it ∧ it.dec h = .error .decrementingNull) := by
  obtain ⟨s, cells, hrep⟩ := reachable_rep hr
  rw [elements_rep hrep] at ha
  cases ha
  refine ⟨fun i h1 hi => ?_, fun hne => ?_⟩
  · simp only [List.length_map] at hi
    obtain ⟨j, rfl⟩ : ∃ j, i = j + 1 := ⟨i - 1, by omega⟩
    have hj : j < cells.length := by omega
    have hsplit : cells = cells.take j ++ cells[j] :: cells[j + 1] :: cells.drop (j + 2) := by
      conv_lhs => rw [split_at cells j hj, List.drop_eq_getElem_cons hi]
    have hrep1 := hrep
    rw [hsplit] at hrep1
    have hit1 := iterAt_elem hrep1
    have hrep2 : Rep h l s ((cells.take j ++ [cells[j]]) ++ cells[j + 1] :: cells.drop (j + 2)) :=
      by simpa using hrep1
    have hit2 := iterAt_elem hrep2
    rw [List.length_take, min_eq_left (le_of_lt hj)] at hit1
    rw [List.length_append, List.length_take, min_eq_left (le_of_lt hj)] at hit2
    obtain ⟨hdec, hinc⟩ := dec_elem hrep1
    exact ⟨_, _, hit2, hit1, hdec, hinc⟩
  · cases cells with
    | nil => simp at hne
    | cons c cs =>
      have hst := hrep.start
      simp only [headPtr_cons] at hst
      exact ⟨⟨some c.1⟩, by simp [iterAt, begin_, hst, pure, Except.pure], dec_first hrep⟩

theorem retreat_at_index_witness :
    Reachable heap123 list123 ∧ elements heap123 list123 = .ok [1, 2, 3] ∧
      (∀ i : Nat, 1 ≤ i → i < ([1, 2, 3] : List Int).length →
        ∃ it it', iterAt heap123 list123 i = .ok it ∧ iterAt heap123 list123 (i - 1) = .ok it' ∧
          it.dec heap123 = .ok it' ∧ it'.inc heap123 = .ok it) ∧
      (([1, 2, 3] : List Int) ≠ [] →
        ∃ it, iterAt heap123 list123 0 = .ok it ∧
          it.dec heap123 = .error .decrementingNull) :=
  ⟨reachable_list123, rfl, retreat_at_index reachable_list123 rfl⟩

/-! ## Iterator stability -/

theorem erase_frame {h : Heap T} {l : MyList} {s : Nat} {xs ys : List (Nat × T)}
    {c : Nat × T} (hr : Rep h l s (xs ++ c :: ys)) :
    ∃ h' l', erase h l ⟨some c.1⟩ = .ok (h', l') ∧
      Frame h h' (s :: (xs.reverse.take 1 ++ c :: ys.take 1).map Prod.fst) ∧
      Rep h' l' s (xs ++ ys) := by
  obtain ⟨h', l', he, hprecise, -, hrep', -⟩ := erase_rep hr
  refine ⟨h', l', he, ?_, hrep'⟩
  rcases eq_nil_or_snoc xs with rfl | ⟨xs, p, rfl⟩
  · have hst := hr.start
    simp only [List.nil_append, headPtr_cons] at hst
    obtain ⟨h1, l1, he1, -, hf, -, -⟩ := pop_front_rep hr
    have heq : erase h l ⟨some c.1⟩ = pop_front h l := by
      simp [erase, Iterator.getCurrent, hst]
    rw [heq, he1] at he
    cases he
    refine hf.mono (fun a ha => ?_)
    simpa using ha
  · cases ys with
    | nil =>
      have hla := hr.last
      simp only [lastPtr_append, lastPtr_cons, lastPtr_nil] at hla
      obtain ⟨h1, l1, he1, hf, -, -, -⟩ := pop_back_rep hr
      rw [erase_last_eq h l _ (by simp [Iterator.getCurrent, hla]), he1] at he
      cases he
      refine hf.mono (fun a ha => ?_)
      simp at ha
      simp
      tauto
    | cons q ys =>
      refine (hprecise (by simp) (by simp)).mono (fun a ha => ?_)
      exact List.mem_cons_of_mem _ ha

theorem atElement_of_mem {h : Heap T} {l : MyList} {s : Nat} {cells : List (Nat × T)}
    (hr : Rep h l s cells) {c : Nat × T} (hc : c ∈ cells) : AtElement h l ⟨some c.1⟩ := by
  obtain ⟨xs, ys, rfl⟩ := List.append_of_mem hc
  refine ⟨xs.length, ?_, iterAt_elem hr⟩
  rw [hr.size_eq]
  simp

theorem cell_unique {cells : List (Nat × T)} (hnd : (cells.map Prod.fst).Nodup)
    {c d : Nat × T} (hc : c ∈ cells) (hd : d ∈ cells) (he : c.1 = d.1) : c = d :=
  List.inj_on_of_nodup_map hnd hc hd he

theorem splice_push_back {h h' : Heap T} {l l' : MyList} {s : Nat} {cells : List (Nat × T)}
    (hr : Rep h l s cells) (c : Nat × T) {v : T} (he : push_back h l v = .ok (h', l')) :
    Splice h h' l' s cells c := by
  obtain ⟨h2, l2, he2, hf, hrep, -⟩ := push_back_rep hr v
  rw [he] at he2
  cases he2
  refine ⟨cells, [], [], [(h.length, v)], by simp, by simpa using hrep, rfl, by simp,
    by simp, hf.mono (fun a ha => ?_)⟩
  simpa using ha

theorem splice_push_front {h h' : Heap T} {l l' : MyList} {s : Nat} {cells : List (Nat × T)}
    (hr : Rep h l s cells) (c : Nat × T) {v : T} (he : push_front h l v = .ok (h', l')) :
    Splice h h' l' s cells c := by
  obtain ⟨h2, l2, he2, hf, hrep⟩ := push_front_rep hr v
  rw [he] at he2
  cases he2
  refine ⟨[], cells, [], [(h.length, v)], by simp, by simpa using hrep, rfl, by simp,
    by simp, hf.mono (fun a ha => ?_)⟩
  simp only [List.mem_map] at ha
  obtain ⟨x, hx, rfl⟩ := ha
  simp only [List.reverse_nil, List.take_nil, List.nil_append, List.mem_cons, List.mem_map]
  exact Or.inr ⟨x, hx, rfl⟩

theorem keepsNode_splice {h h' : Heap T} {l l' : MyList} {s : Nat} {cells : List (Nat × T)}
    {p : Iterator} {c : Nat × T} (hr : Rep h l s cells) (hc : c ∈ cells)
    (hp : p = ⟨some c.1⟩) (hk : KeepsNode p h l h' l') : Splice h h' l' s cells c := by
  cases hk with
  | push_back v he => exact splice_push_back hr c he
  | push_front v he => exact splice_push_front hr c he
  | insert it v hpos he =>
    rcases hpos with rfl | rfl | hit
    · rw [insert_begin_eq] at he
      exact splice_push_front hr c he
    · rw [insert_end_eq hr] at he
      exact splice_push_back hr c he
    · obtain ⟨xs, c0, ys, rfl, rfl⟩ := atElement_rep hr hit
      obtain ⟨h2, l2, he2, hf, hrep⟩ := insert_rep hr v
      rw [he] at he2
      cases he2
      refine ⟨xs, c0 :: ys, [], [(h.length, v)], by simp, by simpa using hrep, rfl, by simp,
        by simp, hf.mono (fun a ha => ?_)⟩
      simp at ha
      simp
      tauto
  | pop_back hne he =>
    rcases eq_nil_or_snoc cells with rfl | ⟨zs, e, rfl⟩
    · simp at hc
    · obtain ⟨h2, l2, he2, hf, hrep, -, -⟩ := pop_back_rep hr
      rw [he] at he2
      cases he2
      rw [List.dropLast_concat] at hrep
      have hla := hr.last
      simp only [lastPtr_append, lastPtr_cons, lastPtr_nil] at hla
      refine ⟨zs, [], [e], [], by simp, by simpa using hrep, rfl, by simp, ?_,
        hf.mono (fun a ha => ?_)⟩
      · intro m hm hmc
        simp only [List.mem_singleton] at hm
        subst hm
        exact hne (by rw [hp, hla, hmc])
      · simp at ha
        simp
        tauto
  | pop_front hne he =>
    cases cells with
    | nil => simp at hc
    | cons e zs =>
      obtain ⟨h2, l2, he2, -, hf, hrep, -⟩ := pop_front_rep hr
      rw [he] at he2
      cases he2
      have hst := hr.start
      simp only [headPtr_cons] at hst
      refine ⟨[], zs, [e], [], by simp, by simpa using hrep, rfl, by simp, ?_,
        hf.mono (fun a ha => ?_)⟩
      · intro m hm hmc
        simp only [List.mem_singleton] at hm
        subst hm
        exact hne (by rw [hp, hst, hmc])
      · simpa using ha
  | erase it hit hne he =>
    obtain ⟨xs, c0, ys, rfl, rfl⟩ := atElement_rep hr hit
    obtain ⟨h2, l2, he2, hf, hrep⟩ := erase_frame hr
    rw [he] at he2
    cases he2
    refine ⟨xs, ys, [c0], [], by simp, by simpa using hrep, rfl, by simp, ?_,
      hf.mono (fun a ha => ?_)⟩
    · intro m hm hmc
      simp only [List.mem_singleton] at hm
      subst hm
      exact hne (by rw [hp, hmc])
    · simpa using ha

theorem deref_of_mem {h : Heap T} {l : MyList} {s : Nat} {cells : List (Nat × T)}
    (hr : Rep h l s cells) {c : Nat × T} (hc : c ∈ cells) :
    Iterator.deref h ⟨some c.1⟩ = .ok c.2 := by
  obtain ⟨xs, ys, rfl⟩ := List.append_of_mem hc
  exact deref_elem hr

theorem not_mem_last_of_dropLast {as : List Nat} (hnd : as.Nodup) {a : Nat}
    (ha : a ∈ as.dropLast) : a ∉ as.reverse.take 1 := by
  rcases eq_nil_or_snoc as with rfl | ⟨as, x, rfl⟩
  · simp at ha
  · rw [List.dropLast_concat] at ha
    simp only [List.reverse_append, List.reverse_cons, List.reverse_nil, List.nil_append,
      List.singleton_append, List.take_succ_cons, List.take_zero, List.mem_singleton]
    exact ne_of_nodup_append hnd ha (by simp)

theorem not_mem_head_of_tail {bs : List Nat} (hnd : bs.Nodup) {a : Nat}
    (ha : a ∈ bs.tail) : a ∉ bs.take 1 := by
  cases bs with
  | nil => simp at ha
  | cons y bs =>
    simp only [List.tail_cons] at ha
    simp only [List.take_succ_cons, List.take_zero, List.mem_singleton]
    rintro rfl
    exact (List.nodup_cons.1 hnd).1 ha

theorem not_neighbour (as ms bs : List Nat) (hnd : (as ++ ms ++ bs).Nodup) {a : Nat}
    (ha : a ∈ as.dropLast ++ bs.tail) : a ∉ as.reverse.take 1 ++ ms ++ bs.take 1 := by
  have h1 : (as ++ (ms ++ bs)).Nodup := by simpa using hnd
  have has : as.Nodup := (List.nodup_append.1 h1).1
  have hbs : bs.Nodup := (List.nodup_append.1 hnd).2.1
  intro hmem
  simp only [List.mem_append] at ha hmem
  rcases ha with ha | ha
  · have haa := List.mem_of_mem_dropLast ha
    rcases hmem with (hm | hm) | hm
    · exact not_mem_last_of_dropLast has ha hm
    · exact ne_of_nodup_append h1 haa (List.mem_append_left _ hm) rfl
    · exact ne_of_nodup_append h1 haa (List.mem_append_right _ (List.mem_of_mem_take hm)) rfl
  · have hab := List.mem_of_mem_tail ha
    rcases hmem with (hm | hm) | hm
    · exact ne_of_nodup_append hnd
        (List.mem_append_left _ (List.mem_reverse.1 (List.mem_of_mem_take hm))) hab rfl
    · exact ne_of_nodup_append hnd (List.mem_append_right _ hm) hab rfl
    · exact not_mem_head_of_tail hbs ha hm

/-- C20: for a reachable list and an iterator `p` at an element node, a single
`push_back`, `push_front` or `insert`, and a single `pop_back`, `pop_front` or `erase`
that removes a node other than the one `p` references, leaves `p` at an element of the
list with the value it had; every iterator that is at an element before and after the
call dereferences to the value it had; and the call changes the list at one position
only, where one cell is added or removed, while every element node that is not next to
that position keeps its value and both its links. -/
theorem iterator_stable [Inhabited T] {h h' : Heap T} {l l' : MyList} {p : Iterator}
    (hr : Reachable h l) (hp : AtElement h l p) (hk : KeepsNode p h l h' l') :
    AtElement h' l' p ∧ (∃ v, p.deref h = .ok v ∧ p.deref h' = .ok v) ∧
      (∀ q, AtElement h l q → AtElement h' l' q → q.deref h' = q.deref h) ∧
      ∃ s cells xs ys mid mid', Rep h l s cells ∧ cells = xs ++ mid ++ ys ∧
        Rep h' l' s (xs ++ mid' ++ ys) ∧ mid.length + mid'.length = 1 ∧
        ∀ a ∈ (xs.dropLast ++ ys.tail).map Prod.fst, h'.cell a = h.cell a := by
  obtain ⟨s, cells, hrep⟩ := reachable_rep hr
  obtain ⟨us, c, vs, hcells, rfl⟩ := atElement_rep hrep hp
  have hc : c ∈ cells := by rw [hcells]; simp
  obtain ⟨xs, ys, mid, mid', hsplit, hrep', hone, hnew, hmid, hf⟩ :=
    keepsNode_splice hrep hc rfl hk
  have hmem : ∀ d ∈ cells, (∀ m ∈ mid, m.1 ≠ d.1) → d ∈ xs ++ mid' ++ ys := by
    intro d hd hdm
    rw [hsplit] at hd
    simp only [List.mem_append] at hd ⊢
    rcases hd with (hd | hd) | hd
    · exact Or.inl (Or.inl hd)
    · exact absurd rfl (hdm d hd)
    · exact Or.inr hd
  have hc' := hmem c hc hmid
  refine ⟨atElement_of_mem hrep' hc', ⟨c.2, deref_of_mem hrep hc, deref_of_mem hrep' hc'⟩,
    ?_, s, cells, xs, ys, mid, mid', hrep, hsplit, hrep', hone, ?_⟩
  · intro q hq hq'
    obtain ⟨us1, d, vs1, hd, rfl⟩ := atElement_rep hrep hq
    obtain ⟨us2, d', vs2, hd', heq⟩ := atElement_rep hrep' hq'
    have hdm : d ∈ cells := by rw [hd]; simp
    have hdm' : d' ∈ xs ++ mid' ++ ys := by rw [hd']; simp
    have hdd : d.1 = d'.1 := by simpa using heq
    have hlt := seg_lt hrep.seg d.1 (List.mem_map_of_mem _ hdm)
    have hold : d' ∈ cells := by
      rw [hsplit]
      simp only [List.mem_append] at hdm' ⊢
      rcases hdm' with (h1 | h1) | h1
      · exact Or.inl (Or.inl h1)
      · have := hnew d' h1
        omega
      · exact Or.inr h1
    have := cell_unique hrep.nodup hdm hold hdd
    subst this
    rw [deref_of_mem hrep hdm, deref_of_mem hrep' hdm']
  · intro a ha
    have hnd := hrep.nodup
    have hfr := hrep.fresh
    rw [hsplit] at hnd hfr
    have hsub : a ∈ (xs ++ mid ++ ys).map Prod.fst := by
      simp only [List.map_append, List.mem_append, List.mem_map] at ha ⊢
      rcases ha with ⟨x, hx, rfl⟩ | ⟨x, hx, rfl⟩
      · exact Or.inl (Or.inl ⟨x, List.mem_of_mem_dropLast hx, rfl⟩)
      · exact Or.inr ⟨x, List.mem_of_mem_tail hx, rfl⟩
    have hlt : a < h.length := seg_lt hrep.seg a (by rw [hsplit]; exact hsub)
    refine hf.2 a hlt ?_
    simp only [List.mem_cons, not_or]
    refine ⟨fun hc => hfr (hc ▸ hsub), ?_⟩
    have := not_neighbour (xs.map Prod.fst) (mid.map Prod.fst) (ys.map Prod.fst)
      (by simpa using hnd) (a := a) (by simpa [List.map_dropLast, List.map_tail] using ha)
    simpa [List.map_take, List.map_reverse] using this

theorem keepsNode_erase_first :
    KeepsNode ⟨some 2⟩ heap123 list123 heapErased listErased :=
  KeepsNode.erase ⟨some 1⟩ ⟨0, by decide, rfl⟩ (by decide) rfl

theorem iterator_stable_witness :
    Reachable heap123 list123 ∧ AtElement heap123 list123 ⟨some 2⟩ ∧
      KeepsNode ⟨some 2⟩ heap123 list123 heapErased listErased ∧
      AtElement heapErased listErased ⟨some 2⟩ ∧
      (∃ v, Iterator.deref heap123 ⟨some 2⟩ = .ok v ∧
        Iterator.deref heapErased ⟨some 2⟩ = .ok v) ∧
      (∀ q, AtElement heap123 list123 q → AtElement heapErased listErased q →
        q.deref heapErased = q.deref heap123) ∧
      ∃ s cells xs ys mid mid', Rep heap123 list123 s cells ∧ cells = xs ++ mid ++ ys ∧
        Rep heapErased listErased s (xs ++ mid' ++ ys) ∧ mid.length + mid'.length = 1 ∧
        ∀ a ∈ (xs.dropLast ++ ys.tail).map Prod.fst, heapErased.cell a = heap123.cell a :=
  ⟨reachable_list123, ⟨1, by decide, rfl⟩, keepsNode_erase_first,
    iterator_stable reachable_list123 ⟨1, by decide, rfl⟩ keepsNode_erase_first⟩

/-! ## Destruction and assignment -/

theorem Frame.trans {h h1 h2 : Heap T} {fp1 fp2 fp : List Nat} (hf1 : Frame h h1 fp1)
    (hf2 : Frame h1 h2 fp2) (h1sub : ∀ a ∈ fp1, a ∈ fp) (h2sub : ∀ a ∈ fp2, a ∈ fp) :
    Frame h h2 fp :=
  ⟨le_trans hf1.1 hf2.1, fun a ha hn => by
    rw [hf2.2 a (lt_of_lt_of_le ha hf1.1) (fun hc => hn (h2sub a hc)),
      hf1.2 a ha (fun hc => hn (h1sub a hc))]⟩

theorem emptyLoop_rep {s : Nat} (cells : List (Nat × T)) :
    ∀ (h : Heap T) (l : MyList) (fuel : Nat), Rep h l s cells → cells.length < fuel →
      ∃ h' l', emptyLoop fuel h l = .ok (h', l') ∧ Rep h' l' s [] ∧
        Frame h h' (footprint s cells) ∧ h'.length = h.length := by
  induction cells with
  | nil =>
    intro h l fuel hr hfuel
    obtain ⟨fuel, rfl⟩ : ∃ k, fuel = k + 1 := ⟨fuel - 1, by omega⟩
    have hst : l.startNode = none := hr.start
    exact ⟨h, l, by simp [emptyLoop, empty, hst, pure, Except.pure], hr,
      ⟨le_refl _, fun _ _ _ => rfl⟩, rfl⟩
  | cons c cs ih =>
    intro h l fuel hr hfuel
    obtain ⟨fuel, rfl⟩ : ∃ k, fuel = k + 1 := ⟨fuel - 1, by omega⟩
    have hst := hr.start
    simp only [headPtr_cons] at hst
    obtain ⟨h1, l1, he1, -, hf1, hr1, hlen1⟩ := pop_front_rep hr
    simp only [List.tail_cons] at hr1
    obtain ⟨h2, l2, he2, hr2, hf2, hlen2⟩ := ih h1 l1 fuel hr1 (by simp at hfuel; omega)
    refine ⟨h2, l2, ?_, hr2, hf1.trans hf2 (fun a ha => ?_) (fun a ha => ?_), by omega⟩
    · simp [emptyLoop, empty, hst, bind, Except.bind, he1, he2]
    · simp only [footprint, List.mem_cons, List.mem_map] at ha ⊢
      rcases ha with rfl | ⟨x, hx, rfl⟩
      · exact Or.inl rfl
      · exact Or.inr ⟨x, by simpa using List.mem_of_mem_take hx, rfl⟩
    · simp only [footprint, List.mem_cons, List.map_cons] at ha ⊢
      rcases ha with rfl | ha
      · exact Or.inl rfl
      · exact Or.inr (Or.inr ha)

theorem emptyList_rep {h : Heap T} {l : MyList} {s : Nat} {cells : List (Nat × T)}
    (hr : Rep h l s cells) :
    ∃ h', emptyList h l = .ok h' ∧ Frame h h' (footprint s cells) ∧ h'.length = h.length := by
  obtain ⟨h1, l1, he1, hr1, hf1, hlen1⟩ :=
    emptyLoop_rep cells h l (h.length + 1) hr (by have := hr.length_lt; omega)
  obtain ⟨d, sp, hs, -⟩ := hr1.sent
  refine ⟨h1.put s none, ?_, ?_, by simp [hlen1]⟩
  · simp [emptyList, bind, Except.bind, he1, hr1.sentinel, Heap.delete, hs]
  · refine ⟨by simpa using hf1.1, fun a ha hn => ?_⟩
    have hne : s ≠ a := by
      rintro rfl
      exact hn (List.mem_cons_self _ _)
    rw [cell_put_other _ hne, hf1.2 a ha hn]

theorem operator_assign_rep [Inhabited T] {h : Heap T} {A B : MyList} {sA sB : Nat}
    {cellsA cellsB : List (Nat × T)} (hA : Rep h A sA cellsA) (hB : Rep h B sB cellsB)
    (hne : cellsB ≠ []) :
    ∃ h' A' cells', operator_assign h A B = .ok (h', A') ∧ Rep h' A' h.length cells' ∧
      cells'.map Prod.snd = cellsB.map Prod.snd ∧
      (∀ a, a < h.length → a ∉ footprint sA cellsA → h'.cell a = h.cell a) ∧
      (∀ a ∈ footprint h.length cells', h.length ≤ a) := by
  obtain ⟨h1, C, cellsC, he1, hrC, hv, hold, hnew⟩ := copyConstruct_rep hB hne
  have hA1 : Rep h1 A sA cellsA := hA.frame (fun a ha => hold a (hA.lt a ha))
  obtain ⟨h2, he2, hf2, hlen2⟩ := emptyList_rep hA1
  have hlen1 : h.length ≤ h1.length := by
    have := hrC.lt h.length (List.mem_cons_self _ _)
    omega
  refine ⟨h2, C, cellsC, ?_, hrC.frame (fun a ha => ?_), hv, fun a ha hn => ?_, hnew⟩
  · simp [operator_assign, bind, Except.bind, he1, he2, pure, Except.pure]
  · refine hf2.2 a (hrC.lt a ha) (fun hc => ?_)
    have := hnew a ha
    have := hA.lt a hc
    omega
  · rw [hf2.2 a (by omega) hn, hold a ha]

/-- Assignment from a list `B` that has elements: `A = B` completes, leaves `A` with the
`size()` and the element sequence of `B` in nodes allocated by the call, and changes no
cell of the heap outside the former nodes of `A`; so a list `B` that shares no node with
`A` is unchanged, and after the self-assignment `A = A` the list has the element sequence
it had. -/
theorem operator_assign_elements [Inhabited T] {h : Heap T} {A B : MyList} {sA sB : Nat}
    {cellsA cellsB : List (Nat × T)} (hA : Rep h A sA cellsA) (hB : Rep h B sB cellsB)
    (hne : cellsB ≠ []) :
    ∃ h' A' vs, operator_assign h A B = .ok (h', A') ∧ elements h B = .ok vs ∧
      elements h' A' = .ok vs ∧ A'.size = B.size ∧
      ((∀ a ∈ footprint sB cellsB, a ∉ footprint sA cellsA) →
        elements h' B = .ok vs ∧ Rep h' B sB cellsB ∧
        ∃ s' cells', Rep h' A' s' cells' ∧
          ∀ a ∈ footprint s' cells', a ∉ footprint sB cellsB) := by
  obtain ⟨h', A', cells', he, hrA', hv, hold, hnew⟩ := operator_assign_rep hA hB hne
  refine ⟨h', A', cellsB.map Prod.snd, he, elements_rep hB, by rw [elements_rep hrA', hv],
    by rw [hrA'.size_eq, hB.size_eq, hv], fun hd => ?_⟩
  have hB' : Rep h' B sB cellsB := hB.frame (fun a ha => hold a (hB.lt a ha) (hd a ha))
  refine ⟨elements_rep hB', hB', h.length, cells', hrA', fun a ha hc => ?_⟩
  have := hnew a ha
  have := hB.lt a hc
  omega

/-- C16, at the input where the code departs from it: assignment from the empty list.  The
parameter of `operator=` is passed by value, and copy-constructing it from a list without
elements goes through the null pointer `other.startNode`, whatever the list assigned to
is. -/
theorem operator_assign_empty [Inhabited T] (h0 : Heap T) (self : MyList) :
    operator_assign (construct h0).1 self (construct h0).2 = .error .undefinedBehaviour := by
  simp [operator_assign, copyConstruct_nil (construct_rep h0), bind, Except.bind]

theorem operator_assign_elements_witness :
    ∃ h' A' vs, operator_assign heap123 list123 list123 = .ok (h', A') ∧
      elements heap123 list123 = .ok vs ∧ elements h' A' = .ok vs ∧
      A'.size = list123.size := by
  obtain ⟨s, cells, hr⟩ := reachable_rep reachable_list123
  have hne : cells ≠ [] := by
    rintro rfl
    have h1 := elements_rep hr
    have h2 : elements heap123 list123 = .ok [1, 2, 3] := rfl
    rw [h2] at h1
    simp at h1
  obtain ⟨h', A', vs, h1, h2, h3, h4, -⟩ := operator_assign_elements hr hr hne
  exact ⟨h', A', vs, h1, h2, h3, h4⟩

theorem front_back_witness :
    Reachable heap123 list123 ∧ elements heap123 list123 = .ok [1, 2, 3] ∧
      (front heap123 list123 = .error .listIsEmpty ↔ ([1, 2, 3] : List Int) = []) ∧
      (back heap123 list123 = .error .listIsEmpty ↔ ([1, 2, 3] : List Int) = []) ∧
      (∀ x, ([1, 2, 3] : List Int).head? = some x → front heap123 list123 = .ok x) ∧
      (∀ x, ([1, 2, 3] : List Int).getLast? = some x → back heap123 list123 = .ok x) :=
  ⟨reachable_list123, rfl, front_back reachable_list123 rfl⟩

end MyList
